import Mathlib

/-!
Verification development for the terraform-graphx dependency-graph
extractor and Neo4j synchronizer.

The development shallowly embeds the Go sources:

* `internal/graph`: the canonical `Node`/`Edge`/`Graph` model.
* `internal/builder` (final revision): `Build`, `extractNodes`,
  `createNodeLookupMap`, `extractEdgesFromState`, `extractEdgesFromConfig`,
  `findReferencesInRawMessage`, `resolveResourceAddress`,
  `convertEdgesToSlice`.
* `internal/parser`: the plan data model (`TerraformPlan`, planned-values
  module tree, prior-state module tree, configuration module tree).
* `internal/neo4j` / `internal/formatter`: `Client.UpdateGraph` and
  `ToCypherTransaction`, together with a state-transformer model of the
  Neo4j store restricted to the exact Cypher the code emits
  (`MATCH ... RETURN n.id`, `UNWIND ... DETACH DELETE`, `MERGE` upserts).

Go strings are modelled as Lean `String`; the Go standard-library string
functions used by the sources (`strings.Split`, `strings.HasPrefix`,
`strings.Join`) are re-implemented executably below so that their
behaviour (including leftmost-first separator matching of `strings.Split`)
is available to proofs.  JSON documents are modelled by an explicit
tagged tree (`Json`); Go's `map[string]json.RawMessage` is modelled as an
ordered field list, faithful to JSON documents without duplicate keys
(encoding/json collapses duplicates and matches keys case-insensitively
as a fallback; the terraform plan schema uses unique lowercase keys).
-/

namespace TerraformGraphx

/-! ### Go string primitives -/

/-- Character-list worker for Go `strings.HasPrefix`: does the first list
start with the second? -/
def startsChars : List Char → List Char → Bool
  | _, [] => true
  | [], _ :: _ => false
  | c :: cs, p :: ps => p == c && startsChars cs ps

/-- Go `strings.HasPrefix s pre`. -/
def goStartsWith (s pre : String) : Bool :=
  startsChars s.data pre.data

/-- Fuel-driven worker for Go `strings.Split` with a nonempty separator:
scan left to right, cut at the leftmost occurrence of `sep`, and repeat on
the rest.  The fuel only serves to make the recursion structural; with
`fuel ≥` the length of the input (as `goSplit` supplies) the fuel never
runs out, because every step consumes at least one character. -/
def splitFuel (sep : List Char) : Nat → List Char → List Char → List (List Char)
  | _, [], acc => [acc.reverse]
  | 0, s, acc => [acc.reverse ++ s]
  | fuel + 1, c :: rest, acc =>
    if startsChars (c :: rest) sep then
      acc.reverse :: splitFuel sep fuel (List.drop (sep.length - 1) rest) []
    else
      splitFuel sep fuel rest (c :: acc)

/-- Go `strings.Split s sep` for the nonempty separators the sources use
(`"."` and `" -> "`). -/
def goSplit (s sep : String) : List String :=
  (splitFuel sep.data s.data.length s.data []).map String.mk

/-- Go `strings.Join xs sep`. -/
def goJoin : List String → String → String
  | [], _ => ""
  | [x], _ => x
  | x :: y :: xs, sep => x ++ sep ++ goJoin (y :: xs) sep

/-! ### JSON documents

`json.RawMessage` payloads are modelled as an explicit tree.  The three
types are mutually inductive (rather than nested through `List`) so that
all recursions over them are structural and evaluate inside the kernel. -/

mutual
inductive Json where
  | null : Json
  | str : String → Json
  | num : Int → Json
  | bool : Bool → Json
  | arr : JsonList → Json
  | obj : JsonFields → Json

inductive JsonList where
  | nil : JsonList
  | cons : Json → JsonList → JsonList

inductive JsonFields where
  | nil : JsonFields
  | cons : String → Json → JsonFields → JsonFields
end

/-- Field lookup in a JSON object (Go `obj[key]` on the unmarshalled
`map[string]json.RawMessage`). -/
def lookupField (key : String) : JsonFields → Option Json
  | .nil => none
  | .cons k v tl => if k == key then some v else lookupField key tl

/-- Worker for `asStringList` on array elements. -/
def stringItems : JsonList → Option (List String)
  | .nil => some []
  | .cons (.str s) tl =>
    match stringItems tl with
    | some ss => some (s :: ss)
    | none => none
  | .cons _ _ => none

/-- Go `json.Unmarshal(raw, &[]string{...})`: succeeds on `null` (nil
slice) and on arrays whose elements are all strings. -/
def asStringList : Json → Option (List String)
  | .null => some []
  | .arr items => stringItems items
  | _ => none

/-! ### Graph model (`internal/graph`) -/

/-- `graph.Node`: one managed resource instance. -/
structure Node where
  id : String
  type : String
  provider : String
  name : String
  attributes : JsonFields

/-- `graph.Edge`: a directed dependency between two node ids. -/
structure Edge where
  «from» : String
  «to» : String
  relation : String
deriving DecidableEq

/-- `graph.Graph`. -/
structure Graph where
  nodes : List Node
  edges : List Edge

/-! ### Parsed plan model (`internal/parser`)

The wrapper structs `State`/`StateValues`/`PlannedValues`/`Configuration`
are pure single-field nesting in Go and are flattened into
`TerraformPlan` here. -/

/-- `parser.Resource`: one entry of a planned-values module. -/
structure Resource where
  address : String
  mode : String
  type : String
  name : String
  providerName : String
  values : JsonFields

mutual
/-- `parser.Module`: the planned-values module tree. -/
inductive Module where
  | mk : List Resource → ModuleList → Module

/-- Child-module list of a `Module`. -/
inductive ModuleList where
  | nil : ModuleList
  | cons : Module → ModuleList → ModuleList
end

/-- Resources of a planned-values module. -/
def Module.resources : Module → List Resource
  | .mk rs _ => rs

/-- Child modules of a planned-values module. -/
def Module.childModules : Module → ModuleList
  | .mk _ cs => cs

/-- `parser.StateResource`: one prior-state resource with its resolved
`depends_on` address list. -/
structure StateResource where
  address : String
  dependsOn : List String

mutual
/-- `parser.StateModule`: the prior-state module tree. -/
inductive StateModule where
  | mk : List StateResource → StateModuleList → StateModule

/-- Child-module list of a `StateModule`. -/
inductive StateModuleList where
  | nil : StateModuleList
  | cons : StateModule → StateModuleList → StateModuleList
end

/-- `parser.ConfigResource`: the shape `extractEdgesFromConfig` decodes
each raw configuration resource into. -/
structure ConfigResource where
  address : String
  expressions : Json

mutual
/-- `parser.ConfigModule`: raw configuration resources plus named child
module calls. -/
inductive ConfigModule where
  | mk : List Json → ModuleCallList → ConfigModule

/-- `parser.ModuleCall` entries (`map[string]ModuleCall`): call name, call
expressions, nested module; only the nested module is consumed by the
builder. -/
inductive ModuleCallList where
  | nil : ModuleCallList
  | cons : String → Json → ConfigModule → ModuleCallList → ModuleCallList
end

/-- Go `json.Unmarshal(r, &resource)` into `parser.ConfigResource`:
objects decode field-wise (absent fields zero-valued, a non-string
`address` is a type error), `null` decodes to the zero struct, and any
other document is an error, making the builder skip the fragment. -/
def decodeConfigResource : Json → Option ConfigResource
  | .null => some ⟨"", .null⟩
  | .obj fields =>
    match lookupField "address" fields with
    | none => some ⟨"", (lookupField "expressions" fields).getD .null⟩
    | some (.str a) => some ⟨a, (lookupField "expressions" fields).getD .null⟩
    | some _ => none
  | _ => none

/-- `parser.TerraformPlan`, flattened to the three trees the builder
reads: `PriorState.Values.RootModule`, `PlannedValues.RootModule` and
`Configuration.RootModule`. -/
structure TerraformPlan where
  priorStateRoot : StateModule
  plannedRoot : Module
  configRoot : ConfigModule

/-! ### Builder (`internal/builder`, final revision) -/

/-- Builder constant `ManagedResourceMode`. -/
def ManagedResourceMode : String := "managed"

/-- Builder constant `DependsOnRelation`. -/
def DependsOnRelation : String := "DEPENDS_ON"

/-- Node literal built by `extractNodes` from a managed resource. -/
def resourceToNode (r : Resource) : Node :=
  ⟨r.address, r.type, r.providerName, r.name, r.values⟩

mutual
/-- `builder.extractNodes`: recursively collect one `Node` per resource
whose mode is `"managed"`. -/
def extractNodes : Module → List Node
  | .mk rs cs =>
    ((rs.filter fun r => r.mode == ManagedResourceMode).map resourceToNode)
      ++ extractNodesList cs

/-- Child-module part of `extractNodes`. -/
def extractNodesList : ModuleList → List Node
  | .nil => []
  | .cons m tl => extractNodes m ++ extractNodesList tl
end

/-- Membership side of the `nodeMap` built by `createNodeLookupMap`
(`_, ok := nodeMap[addr]`); only membership of the map is ever consumed. -/
def nodeMapContains (nodes : List Node) (addr : String) : Bool :=
  nodes.any fun n => n.id == addr

/-- Key side of `builder.createNodeLookupMap`: all node ids sorted by
length, longest first (`sort.Slice` with `len(keys[i]) > len(keys[j])`;
ties are order-irrelevant because two same-length keys can never both
match one reference). -/
def createNodeLookupKeys (nodes : List Node) : List String :=
  List.insertionSort (fun a b => b.length ≤ a.length) (nodes.map Node.id)

/-- Edge key `fmt.Sprintf("%s -> %s", from, to)` used in the
`uniqueEdges` map. -/
def mkEdgeKey (a b : String) : String :=
  a ++ " -> " ++ b

/-- Insertion into the `uniqueEdges` set (`map[string]struct{}`),
modelled as a duplicate-free list in insertion order; the Go map holds
exactly the same set of keys. -/
def insertEdgeKey (k : String) (acc : List String) : List String :=
  if k ∈ acc then acc else acc ++ [k]

/-- Per-resource body of `extractEdgesFromState`: keep a dependency edge
only when both the resource address and the `depends_on` target are
existing node ids. -/
def stateResourceEdges (nodes : List Node) (r : StateResource)
    (acc : List String) : List String :=
  if nodeMapContains nodes r.address then
    r.dependsOn.foldl
      (fun acc dep =>
        if nodeMapContains nodes dep then
          insertEdgeKey (mkEdgeKey r.address dep) acc
        else acc)
      acc
  else acc

mutual
/-- `builder.extractEdgesFromState`: walk the prior-state tree and turn
each `depends_on` entry into an edge key. -/
def extractEdgesFromState : StateModule → List Node → List String → List String
  | .mk rs cs, nodes, acc =>
    extractEdgesFromStateList cs nodes
      (rs.foldl (fun acc r => stateResourceEdges nodes r acc) acc)

/-- Child-module part of `extractEdgesFromState`. -/
def extractEdgesFromStateList : StateModuleList → List Node → List String → List String
  | .nil, _, acc => acc
  | .cons m tl, nodes, acc =>
    extractEdgesFromStateList tl nodes (extractEdgesFromState m nodes acc)
end

/-- Loop of `builder.resolveResourceAddress` over the sorted key list:
return the first key the reference matches exactly, as an attribute
access (`key ++ "."`) or as an indexed access (`key ++ "["`). -/
def findMatchingKey (ref : String) : List String → Option String
  | [] => none
  | key :: rest =>
    if ref == key || goStartsWith ref (key ++ ".") || goStartsWith ref (key ++ "[") then
      some key
    else findMatchingKey ref rest

/-- Does the dot-split reference start with the given segment?  Models the
Go `len(parts) > 0 && parts[0] == seg` pattern (`strings.Split` never
returns an empty slice, so the length guard is always true). -/
def headSegmentIs (parts : List String) (seg : String) : Bool :=
  match parts with
  | [] => false
  | p :: _ => p == seg

/-- `builder.resolveResourceAddress` (final revision): filter out
variable/local references, then longest-match against the sorted node
keys, then synthesize a three-segment data-source address, else empty. -/
def resolveResourceAddress (ref : String) (nodeKeys : List String) : String :=
  let parts := goSplit ref "."
  if headSegmentIs parts "var" || headSegmentIs parts "local" then ""
  else
    match findMatchingKey ref nodeKeys with
    | some key => key
    | none =>
      if decide (3 ≤ parts.length) && headSegmentIs parts "data" then
        goJoin (parts.take 3) "."
      else ""

/-- Per-reference body of `extractEdgesFromConfig`'s callback: resolve the
reference and record a non-empty, non-self dependency. -/
def configRefEdges (nodeKeys : List String) (addr : String)
    (refs : List String) (acc : List String) : List String :=
  refs.foldl
    (fun acc ref =>
      let depAddress := resolveResourceAddress ref nodeKeys
      if depAddress != "" && addr != depAddress then
        insertEdgeKey (mkEdgeKey addr depAddress) acc
      else acc)
    acc

mutual
/-- `builder.findReferencesInRawMessage`, with the callback turned into
list collection: an object with a `references` field contributes that
field decoded as a string list (or nothing, if it does not decode) and is
not descended into further; any other object and every array is recursed
into; scalars and `null` contribute nothing. -/
def findReferencesInRawMessage : Json → List String
  | .obj fields =>
    match lookupField "references" fields with
    | some refsVal =>
      match asStringList refsVal with
      | some refs => refs
      | none => []
    | none => findRefsInFields fields
  | .arr items => findRefsInList items
  | _ => []

/-- Object-value part of `findReferencesInRawMessage`. -/
def findRefsInFields : JsonFields → List String
  | .nil => []
  | .cons _ v tl => findReferencesInRawMessage v ++ findRefsInFields tl

/-- Array-element part of `findReferencesInRawMessage`. -/
def findRefsInList : JsonList → List String
  | .nil => []
  | .cons v tl => findReferencesInRawMessage v ++ findRefsInList tl
end

/-- Per-resource body of `extractEdgesFromConfig`: skip fragments that do
not decode, skip resources outside the node map, and process every
collected reference. -/
def configResourceEdges (nodes : List Node) (nodeKeys : List String)
    (raw : Json) (acc : List String) : List String :=
  match decodeConfigResource raw with
  | none => acc
  | some res =>
    if nodeMapContains nodes res.address then
      configRefEdges nodeKeys res.address
        (findReferencesInRawMessage res.expressions) acc
    else acc

mutual
/-- `builder.extractEdgesFromConfig`: walk the configuration tree and
collect dependency edge keys from expression references. -/
def extractEdgesFromConfig :
    ConfigModule → List Node → List String → List String → List String
  | .mk rs calls, nodes, nodeKeys, acc =>
    extractEdgesFromConfigCalls calls nodes nodeKeys
      (rs.foldl (fun acc raw => configResourceEdges nodes nodeKeys raw acc) acc)

/-- Module-call part of `extractEdgesFromConfig`. -/
def extractEdgesFromConfigCalls :
    ModuleCallList → List Node → List String → List String → List String
  | .nil, _, _, acc => acc
  | .cons _ _ m tl, nodes, nodeKeys, acc =>
    extractEdgesFromConfigCalls tl nodes nodeKeys
      (extractEdgesFromConfig m nodes nodeKeys acc)
end

/-- Decoding of one `uniqueEdges` key inside `convertEdgesToSlice`
(`parts := strings.Split(edgeKey, " -> ")`, then `parts[0]`/`parts[1]`;
every inserted key contains the separator, so both indices exist). -/
def edgeKeyToEdge (k : String) : Edge :=
  let parts := goSplit k " -> "
  ⟨parts.getD 0 "", parts.getD 1 "", DependsOnRelation⟩

/-- `builder.convertEdgesToSlice`.  Go iterates the `uniqueEdges` map in
unspecified order; the model uses insertion order, one fixed
representative of the permitted orders. -/
def convertEdgesToSlice (keys : List String) : List Edge :=
  keys.map edgeKeyToEdge

/-- `builder.Build` (final revision): nodes from the planned values,
edges primarily from the prior state's `depends_on` lists, falling back
to configuration-expression analysis when the state pass finds no edge. -/
def Build (plan : TerraformPlan) : Graph :=
  let nodes := extractNodes plan.plannedRoot
  let nodeKeys := createNodeLookupKeys nodes
  let stateKeys := extractEdgesFromState plan.priorStateRoot nodes []
  let finalKeys :=
    if stateKeys.isEmpty then
      extractEdgesFromConfig plan.configRoot nodes nodeKeys []
    else stateKeys
  ⟨nodes, convertEdgesToSlice finalKeys⟩

/-! ### Store model and synchronizer (`internal/formatter`, `internal/neo4j`)

The persisted Neo4j state is modelled as a finite set of `:Resource`
nodes (the fixed four-property schema) plus a finite set of
`DEPENDS_ON` relationships between node ids.  The semantics of the four
parameterized Cypher operations the synchronizer issues
(`MATCH (n:Resource) RETURN n.id`, `UNWIND ... DETACH DELETE`,
`UNWIND $nodes MERGE ... SET ...`, `UNWIND $edges MATCH MATCH MERGE`)
are modelled from the store-interface contract of the specification
(§4.3/§6): `MERGE` on a node id matches-or-creates and `SET`
overwrites the remaining properties, `MERGE` on a relationship creates
it only if absent, `DETACH DELETE` removes the matched nodes together
with their incident relationships, and a relationship `MERGE` whose
`MATCH` finds no endpoint does nothing. -/

/-- Persisted node record: the fixed schema `id`/`type`/`provider`/`name`
written by `ToCypherTransaction`. -/
structure DBNode where
  id : String
  type : String
  provider : String
  name : String
deriving DecidableEq

/-- Persisted store state: `:Resource` nodes and `DEPENDS_ON`
relationships (as ordered id pairs; ids are unique in every state this
model produces). -/
structure StoreState where
  nodes : Finset DBNode
  rels : Finset (String × String)
deriving DecidableEq

/-- The store with no persisted entities. -/
def emptyStore : StoreState := ⟨∅, ∅⟩

/-- The `node_data` entry built for one graph node. -/
def nodeToDB (n : Node) : DBNode :=
  ⟨n.id, n.type, n.provider, n.name⟩

/-- Result of `MATCH (n:Resource) RETURN n.id as id`: the set of
persisted node ids. -/
def storeIds (db : StoreState) : Finset String :=
  db.nodes.image DBNode.id

/-- The query and parameters built by `formatter.ToCypherTransaction`,
embedded as their semantic content: the `$nodes` batch, the `$edges`
batch, and whether the relationship clause was appended (only when the
graph has edges). -/
structure CypherTx where
  nodesData : List DBNode
  edgesData : List (String × String)
  hasEdgeClause : Bool

/-- `formatter.ToCypherTransaction`. -/
def ToCypherTransaction (g : Graph) : CypherTx :=
  { nodesData := g.nodes.map nodeToDB
  , edgesData := if g.edges.isEmpty then [] else g.edges.map fun e => (e.«from», e.«to»)
  , hasEdgeClause := !g.edges.isEmpty }

/-- Effect of `MERGE (n:Resource {id: node_data.id}) SET n.type = ...,
n.provider = ..., n.name = ...` for one `$nodes` row: match-or-create by
id, then overwrite the other properties. -/
def mergeDBNode (n : DBNode) (db : StoreState) : StoreState :=
  { db with nodes := insert n (db.nodes.filter fun m => m.id ≠ n.id) }

/-- Effect of `MATCH (from ...) MATCH (to ...) MERGE
(from)-[:DEPENDS_ON]->(to)` for one `$edges` row: insert the
relationship if both endpoints match a persisted node, else no row and
no effect. -/
def mergeRel (p : String × String) (db : StoreState) : StoreState :=
  if p.1 ∈ storeIds db ∧ p.2 ∈ storeIds db then
    { db with rels := insert p db.rels }
  else db

/-- Effect of running the `ToCypherTransaction` query: upsert every
`$nodes` row, then — on each of the resulting rows, hence not at all when
`$nodes` is empty — merge every `$edges` row (repetition of an idempotent
`MERGE` collapses to one application). -/
def runCypherTx (tx : CypherTx) (db : StoreState) : StoreState :=
  let db1 := tx.nodesData.foldl (fun db n => mergeDBNode n db) db
  if tx.nodesData.isEmpty then db1
  else if tx.hasEdgeClause then
    tx.edgesData.foldl (fun db p => mergeRel p db) db1
  else db1

/-- Effect of `UNWIND $obsoleteIds AS obsoleteId MATCH (n:Resource {id:
obsoleteId}) DETACH DELETE n`: drop every node whose id is obsolete and
every relationship incident to an obsolete id. -/
def detachDelete (obsolete : Finset String) (db : StoreState) : StoreState :=
  { nodes := db.nodes.filter fun n => n.id ∉ obsolete
  , rels := db.rels.filter fun p => p.1 ∉ obsolete ∧ p.2 ∉ obsolete }

/-- The ids the synchronizer deletes: persisted ids absent from the new
graph (`existingIDs` minus `newIDs`). -/
def obsoleteIds (g : Graph) (db : StoreState) : Finset String :=
  (storeIds db).filter fun i => i ∉ g.nodes.map Node.id

/-- `neo4j.Client.UpdateGraph`, successful path: inside one write
transaction, read the persisted ids, delete the obsolete ones (the
delete query is only issued when there are any), then run the
`ToCypherTransaction` upsert. -/
def UpdateGraph (g : Graph) (db : StoreState) : StoreState :=
  let idsToDelete := obsoleteIds g db
  let db1 := if idsToDelete = ∅ then db else detachDelete idsToDelete db
  runCypherTx (ToCypherTransaction g) db1

/-! ### Specification-side collectors

These definitions restate tree-walks in the direct "collect everything,
then select" style the specification uses, to compare against the fused
walks of the builder. -/

mutual
/-- All resource entries of a planned-values module tree, parents before
children, in tree order. -/
def allResources : Module → List Resource
  | .mk rs cs => rs ++ allResourcesList cs

/-- Child-module part of `allResources`. -/
def allResourcesList : ModuleList → List Resource
  | .nil => []
  | .cons m tl => allResources m ++ allResourcesList tl
end

mutual
/-- All resource entries of a prior-state module tree. -/
def allStateResources : StateModule → List StateResource
  | .mk rs cs => rs ++ allStateResourcesList cs

/-- Child-module part of `allStateResources`. -/
def allStateResourcesList : StateModuleList → List StateResource
  | .nil => []
  | .cons m tl => allStateResources m ++ allStateResourcesList tl
end

/-- Reference strings the configuration scan collects from one raw
resource fragment: none when the fragment does not decode, else the
scan's harvest from its `expressions` payload. -/
def configResourceRefs (raw : Json) : List String :=
  match decodeConfigResource raw with
  | some res => findReferencesInRawMessage res.expressions
  | none => []

mutual
/-- All reference strings harvested anywhere in a configuration module
tree. -/
def allConfigRefs : ConfigModule → List String
  | .mk rs calls =>
    rs.foldr (fun raw acc => configResourceRefs raw ++ acc) []
      ++ allConfigRefsCalls calls

/-- Module-call part of `allConfigRefs`. -/
def allConfigRefsCalls : ModuleCallList → List String
  | .nil => []
  | .cons _ _ m tl => allConfigRefs m ++ allConfigRefsCalls tl
end

/-- Has the string no space character?  Real terraform addresses and
references are space-free; the edge-key separator `" -> "` can only be
decoded unambiguously for space-free components. -/
def hasNoSpace (s : String) : Bool :=
  s.data.all fun c => !(c == ' ')

/-- Characters of the edge-key separator `" -> "`. -/
def edgeSepChars : List Char := [' ', '-', '>', ' ']

/-- Failure injection for the three store operations `UpdateGraph` issues
inside its transaction. -/
structure TxFailure where
  failQueryIds : Bool
  failDelete : Bool
  failUpsert : Bool

/-- The profile in which no store operation fails. -/
def noTxFailure : TxFailure := ⟨false, false, false⟩

/-- The transaction body of `UpdateGraph` with failure injection: each
`tx.Run` may fail, and a failing step aborts the body with its error
(the delete step only runs — and hence can only fail — when there are
obsolete ids). -/
def updateGraphTx (f : TxFailure) (g : Graph) (db : StoreState) :
    Except String StoreState :=
  if f.failQueryIds then .error "failed to query current resources" else
  let idsToDelete := obsoleteIds g db
  if idsToDelete ≠ ∅ ∧ f.failDelete then .error "failed to delete obsolete resources" else
  let db1 := if idsToDelete = ∅ then db else detachDelete idsToDelete db
  if f.failUpsert then .error "failed to upsert current graph" else
  .ok (runCypherTx (ToCypherTransaction g) db1)

/-- Modelled from the spec: the managed write transaction
(`session.ExecuteWrite`, provided by the external Neo4j driver) commits
the body's final state on success and rolls the store back to its prior
state on any error, which `UpdateGraph` wraps into a single returned
error (§4.3, §7).  The result pairs the value `Client.UpdateGraph`
returns with the state the store holds after the call. -/
def runUpdateGraph (f : TxFailure) (g : Graph) (db : StoreState) :
    Except String StoreState × StoreState :=
  match updateGraphTx f g db with
  | .error e => (.error ("failed to execute transaction to update graph: " ++ e), db)
  | .ok db' => (.ok db', db')

/-! ### Reachability of reference lists and specification-side collector -/

/-- Membership of an element in a `JsonList`. -/
inductive JsonMem : Json → JsonList → Prop
  | head (j : Json) (tl : JsonList) : JsonMem j (.cons j tl)
  | tail (j j2 : Json) (tl : JsonList) : JsonMem j tl → JsonMem j (.cons j2 tl)

/-- Membership of a key/value field in a `JsonFields` list. -/
inductive FieldMem : String → Json → JsonFields → Prop
  | head (k : String) (v : Json) (tl : JsonFields) : FieldMem k v (.cons k v tl)
  | tail (k k2 : String) (v v2 : Json) (tl : JsonFields) :
      FieldMem k v tl → FieldMem k v (.cons k2 v2 tl)

/-- A `references` string list sitting at some depth inside a payload,
reachable through arrays and through objects that do not themselves
carry a `references` key. -/
inductive HoldsRefs : Json → List String → Prop
  | here (fields : JsonFields) (v : Json) (refs : List String) :
      lookupField "references" fields = some v → asStringList v = some refs →
      HoldsRefs (.obj fields) refs
  | inArr (items : JsonList) (j : Json) (refs : List String) :
      JsonMem j items → HoldsRefs j refs → HoldsRefs (.arr items) refs
  | inObj (fields : JsonFields) (k : String) (v : Json) (refs : List String) :
      lookupField "references" fields = none → FieldMem k v fields →
      HoldsRefs v refs → HoldsRefs (.obj fields) refs

mutual
/-- Specification-side collector: the strings of every `references` list
found at any depth of the payload, descending into every container
unconditionally. -/
def allRefLists : Json → List String
  | .obj fields =>
    (match lookupField "references" fields with
     | some v => (asStringList v).getD []
     | none => []) ++ allRefListsFields fields
  | .arr items => allRefListsList items
  | _ => []

/-- Object part of `allRefLists`. -/
def allRefListsFields : JsonFields → List String
  | .nil => []
  | .cons _ v tl => allRefLists v ++ allRefListsFields tl

/-- Array part of `allRefLists`. -/
def allRefListsList : JsonList → List String
  | .nil => []
  | .cons j tl => allRefLists j ++ allRefListsList tl
end

/-! ### Concrete fixtures for witnesses and counterexamples -/

/-- Managed planned-values resource with the given address, type and
name. -/
def fixtureResource (addr typ nm : String) : Resource :=
  ⟨addr, "managed", typ, nm, "registry.terraform.io/hashicorp/null", .nil⟩

/-- The specification's §8 scenario: `null_resource.cluster` plus
`null_resource.app` whose configuration expression references
`null_resource.cluster.id`; no prior state. -/
def scenarioPlan : TerraformPlan :=
  { priorStateRoot := .mk [] .nil
  , plannedRoot := .mk
      [ fixtureResource "null_resource.app" "null_resource" "app"
      , fixtureResource "null_resource.cluster" "null_resource" "cluster" ] .nil
  , configRoot := .mk
      [ .obj (.cons "address" (.str "null_resource.app")
          (.cons "expressions" (.obj (.cons "triggers" (.obj (.cons "references"
            (.arr (.cons (.str "null_resource.cluster.id") .nil)) .nil)) .nil)) .nil))
      , .obj (.cons "address" (.str "null_resource.cluster")
          (.cons "expressions" (.obj .nil) .nil))
      ] .nil }

/-- Plan whose prior state lists resource `a` as depending on itself. -/
def selfDepPlan : TerraformPlan :=
  { priorStateRoot := .mk [⟨"a", ["a"]⟩] .nil
  , plannedRoot := .mk [fixtureResource "a" "t" "n"] .nil
  , configRoot := .mk [] .nil }

/-- Plan with a node id containing the edge-key separator `" -> "`, so
that the keys `"a -> b"` and `"a -> b -> c"` decode to the same pair. -/
def sepPlan : TerraformPlan :=
  { priorStateRoot := .mk [⟨"a", ["b", "b -> c"]⟩] .nil
  , plannedRoot := .mk
      [ fixtureResource "a" "t" "n"
      , fixtureResource "b" "t" "n"
      , fixtureResource "b -> c" "t" "n" ] .nil
  , configRoot := .mk [] .nil }

/-- Two-node graph with one edge `a → b`. -/
def gEdge : Graph :=
  ⟨[⟨"a", "t", "p", "na", .nil⟩, ⟨"b", "t", "p", "nb", .nil⟩], [⟨"a", "b", "DEPENDS_ON"⟩]⟩

/-- The same two nodes with no edge. -/
def gNoEdge : Graph :=
  ⟨[⟨"a", "t", "p", "na", .nil⟩, ⟨"b", "t", "p", "nb", .nil⟩], []⟩

/-- Graph retaining only node `b`. -/
def gOnlyB : Graph := ⟨[⟨"b", "t", "p", "nb", .nil⟩], []⟩

/-- Payload whose top-level object carries a `references` list and, in a
sibling value, a second nested `references` list. -/
def shadowedPayload : Json :=
  .obj (.cons "references" (.arr (.cons (.str "a") .nil))
    (.cons "z" (.obj (.cons "references" (.arr (.cons (.str "b") .nil)) .nil)) .nil))

/-- Payload with a `references` list nested below an array. -/
def nestedPayload : Json :=
  .arr (.cons (.obj (.cons "references" (.arr (.cons (.str "w") .nil)) .nil)) .nil)

/-! ### String lemmas -/

theorem hasNoSpace_iff {s : String} :
    hasNoSpace s = true ↔ ∀ c ∈ s.data, ¬c = ' ' := by
  simp [hasNoSpace, List.all_eq_true]

theorem startsChars_nil : ∀ s : List Char, startsChars s [] = true
  | [] => rfl
  | _ :: _ => rfl

theorem startsChars_append_self :
    ∀ xs ys : List Char, startsChars (xs ++ ys) xs = true
  | [], ys => startsChars_nil ys
  | c :: cs, ys => by
    simp [startsChars, startsChars_append_self cs ys]

theorem splitFuel_of_no_sep :
    ∀ (fuel : Nat) (s acc : List Char), (∀ c ∈ s, ¬c = ' ') →
      splitFuel edgeSepChars fuel s acc = [acc.reverse ++ s] := by
  intro fuel
  induction fuel with
  | zero =>
    intro s acc _
    cases s with
    | nil => simp [splitFuel]
    | cons c rest => rfl
  | succ fuel ih =>
    intro s acc h
    cases s with
    | nil => simp [splitFuel]
    | cons c rest =>
      have hc : ¬c = ' ' := h c (List.mem_cons_self c rest)
      have hc' : (' ' == c) = false := by
        simp only [beq_eq_false_iff_ne]
        exact fun h' => hc h'.symm
      have hcond : startsChars (c :: rest) edgeSepChars = false := by
        simp [edgeSepChars, startsChars, hc']
      rw [splitFuel, hcond]
      simp only [Bool.false_eq_true, if_false]
      rw [ih rest (c :: acc) fun c' hc' => h c' (List.mem_cons_of_mem c hc')]
      simp

theorem splitFuel_boundary :
    ∀ (a : List Char) (fuel : Nat) (b acc : List Char),
      (∀ c ∈ a, ¬c = ' ') → (∀ c ∈ b, ¬c = ' ') → a.length + 1 ≤ fuel →
      splitFuel edgeSepChars fuel (a ++ edgeSepChars ++ b) acc = [acc.reverse ++ a, b] := by
  intro a
  induction a with
  | nil =>
    intro fuel b acc _ hb hfuel
    cases fuel with
    | zero => omega
    | succ fuel =>
      have hshape : ([] : List Char) ++ edgeSepChars ++ b
          = ' ' :: ('-' :: '>' :: ' ' :: b) := rfl
      have hcond : startsChars (' ' :: ('-' :: '>' :: ' ' :: b)) edgeSepChars = true :=
        startsChars_append_self edgeSepChars b
      rw [hshape, splitFuel, if_pos hcond]
      rw [show List.drop (edgeSepChars.length - 1) ('-' :: '>' :: ' ' :: b) = b from rfl]
      rw [splitFuel_of_no_sep fuel b [] hb]
      simp
  | cons c a' ih =>
    intro fuel b acc ha hb hfuel
    cases fuel with
    | zero => simp at hfuel
    | succ fuel =>
      have hc : ¬c = ' ' := ha c (List.mem_cons_self c a')
      have hc' : (' ' == c) = false := by
        simp only [beq_eq_false_iff_ne]
        exact fun h' => hc h'.symm
      have hshape : (c :: a') ++ edgeSepChars ++ b
          = c :: (a' ++ edgeSepChars ++ b) := rfl
      have hcond : startsChars (c :: (a' ++ edgeSepChars ++ b)) edgeSepChars = false := by
        simp [edgeSepChars, startsChars, hc']
      rw [hshape, splitFuel, hcond]
      simp only [Bool.false_eq_true, if_false]
      rw [ih fuel b (c :: acc)
        (fun c' hc' => ha c' (List.mem_cons_of_mem c hc')) hb
        (by simp only [List.length_cons] at hfuel; omega)]
      simp

theorem goSplit_mkEdgeKey {a b : String}
    (ha : hasNoSpace a = true) (hb : hasNoSpace b = true) :
    goSplit (mkEdgeKey a b) " -> " = [a, b] := by
  have hdata : (mkEdgeKey a b).data = a.data ++ edgeSepChars ++ b.data := by
    simp [mkEdgeKey, String.data_append, edgeSepChars, List.append_assoc]
  have hsep : (" -> " : String).data = edgeSepChars := rfl
  rw [goSplit, hsep, hdata]
  rw [splitFuel_boundary a.data _ b.data [] (hasNoSpace_iff.mp ha) (hasNoSpace_iff.mp hb)
    (by simp only [List.length_append, show edgeSepChars.length = 4 from rfl]; omega)]
  simp

theorem edgeKeyToEdge_mkEdgeKey {a b : String}
    (ha : hasNoSpace a = true) (hb : hasNoSpace b = true) :
    edgeKeyToEdge (mkEdgeKey a b) = ⟨a, b, DependsOnRelation⟩ := by
  rw [edgeKeyToEdge, goSplit_mkEdgeKey ha hb]
  rfl

theorem mem_of_mem_splitFuel {sep : List Char} :
    ∀ (fuel : Nat) (s acc piece : List Char), piece ∈ splitFuel sep fuel s acc →
      ∀ c ∈ piece, c ∈ s ∨ c ∈ acc := by
  intro fuel
  induction fuel with
  | zero =>
    intro s acc piece hp c hc
    cases s with
    | nil =>
      simp only [splitFuel, List.mem_singleton] at hp
      subst hp
      exact .inr (List.mem_reverse.mp hc)
    | cons c0 rest =>
      simp only [splitFuel, List.mem_singleton] at hp
      subst hp
      rcases List.mem_append.mp hc with h | h
      · exact .inr (List.mem_reverse.mp h)
      · exact .inl h
  | succ fuel ih =>
    intro s acc piece hp c hc
    cases s with
    | nil =>
      simp only [splitFuel, List.mem_singleton] at hp
      subst hp
      exact .inr (List.mem_reverse.mp hc)
    | cons c0 rest =>
      rw [splitFuel] at hp
      by_cases hcond : startsChars (c0 :: rest) sep = true
      · rw [if_pos hcond] at hp
        rcases List.mem_cons.mp hp with h | h
        · subst h
          exact .inr (List.mem_reverse.mp hc)
        · rcases ih _ _ _ h c hc with h' | h'
          · exact .inl (List.mem_cons_of_mem c0 (List.mem_of_mem_drop h'))
          · simp at h'
      · rw [if_neg hcond] at hp
        rcases ih _ _ _ hp c hc with h' | h'
        · exact .inl (List.mem_cons_of_mem c0 h')
        · rcases List.mem_cons.mp h' with h'' | h''
          · exact .inl (h'' ▸ List.mem_cons_self c0 rest)
          · exact .inr h''

theorem mem_data_of_mem_goSplit {s sep p : String} (hp : p ∈ goSplit s sep) :
    ∀ c ∈ p.data, c ∈ s.data := by
  rw [goSplit] at hp
  obtain ⟨l, hl, rfl⟩ := List.mem_map.mp hp
  intro c hc
  rcases mem_of_mem_splitFuel _ _ _ _ hl c hc with h | h
  · exact h
  · simp at h

theorem mem_data_of_mem_goJoin :
    ∀ (xs : List String) (sep : String) (c : Char), c ∈ (goJoin xs sep).data →
      (∃ x ∈ xs, c ∈ x.data) ∨ c ∈ sep.data := by
  intro xs
  induction xs with
  | nil =>
    intro sep c hc
    rw [goJoin] at hc
    simp at hc
  | cons x xs ih =>
    intro sep c hc
    cases xs with
    | nil =>
      rw [goJoin] at hc
      exact .inl ⟨x, List.mem_cons_self x [], hc⟩
    | cons y ys =>
      rw [goJoin, String.data_append, String.data_append] at hc
      rcases List.mem_append.mp hc with h | h
      · rcases List.mem_append.mp h with h' | h'
        · exact .inl ⟨x, List.mem_cons_self x (y :: ys), h'⟩
        · exact .inr h'
      · rcases ih sep c h with ⟨z, hz, hcz⟩ | h'
        · exact .inl ⟨z, List.mem_cons_of_mem x hz, hcz⟩
        · exact .inr h'

theorem findMatchingKey_mem {ref k : String} :
    ∀ {keys : List String}, findMatchingKey ref keys = some k → k ∈ keys := by
  intro keys
  induction keys with
  | nil => intro h; simp [findMatchingKey] at h
  | cons key rest ih =>
    intro h
    rw [findMatchingKey] at h
    by_cases hcond : (ref == key || goStartsWith ref (key ++ ".")
        || goStartsWith ref (key ++ "[")) = true
    · rw [if_pos hcond] at h
      exact (Option.some_inj.mp h) ▸ List.mem_cons_self key rest
    · rw [if_neg hcond] at h
      exact List.mem_cons_of_mem key (ih h)

theorem hasNoSpace_resolve {ref : String} {keys : List String}
    (href : hasNoSpace ref = true) (hkeys : ∀ k ∈ keys, hasNoSpace k = true) :
    hasNoSpace (resolveResourceAddress ref keys) = true := by
  rw [resolveResourceAddress]
  by_cases hvl : (headSegmentIs (goSplit ref ".") "var"
      || headSegmentIs (goSplit ref ".") "local") = true
  · simp only [hvl, if_true]; rfl
  · simp only [hvl, Bool.false_eq_true, if_false]
    cases hfind : findMatchingKey ref keys with
    | some key => exact hkeys key (findMatchingKey_mem hfind)
    | none =>
      by_cases hdata : (decide (3 ≤ (goSplit ref ".").length)
          && headSegmentIs (goSplit ref ".") "data") = true
      · simp only [hdata, if_true]
        rw [hasNoSpace_iff]
        intro c hc
        rcases mem_data_of_mem_goJoin _ _ c hc with ⟨x, hx, hcx⟩ | h
        · have : c ∈ ref.data :=
            mem_data_of_mem_goSplit (List.mem_of_mem_take hx) c hcx
          exact hasNoSpace_iff.mp href c this
        · simp only [show ("." : String).data = ['.'] from rfl, List.mem_singleton] at h
          subst h; intro h'; cases h'
      · simp only [hdata, Bool.false_eq_true, if_false]; rfl

/-! ### Node-extraction and lookup lemmas -/

/-- Node ids built by `nodeToDB` agree with the graph node's id. -/
theorem nodeToDB_id (n : Node) : (nodeToDB n).id = n.id := rfl

theorem nodeMapContains_iff {nodes : List Node} {addr : String} :
    nodeMapContains nodes addr = true ↔ ∃ n ∈ nodes, n.id = addr := by
  simp [nodeMapContains, List.any_eq_true]

theorem mem_createNodeLookupKeys {nodes : List Node} {k : String} :
    k ∈ createNodeLookupKeys nodes ↔ k ∈ nodes.map Node.id := by
  rw [createNodeLookupKeys]
  exact List.mem_insertionSort _

theorem createNodeLookupKeys_sorted (nodes : List Node) :
    List.Sorted (fun a b : String => b.length ≤ a.length) (createNodeLookupKeys nodes) := by
  haveI : IsTotal String (fun a b : String => b.length ≤ a.length) :=
    ⟨fun a b => Nat.le_total b.length a.length⟩
  haveI : IsTrans String (fun a b : String => b.length ≤ a.length) :=
    ⟨fun _ _ _ h1 h2 => Nat.le_trans h2 h1⟩
  exact List.sorted_insertionSort _ _

mutual
/-- `extractNodes` is the managed filter of the full resource collection. -/
theorem extractNodes_eq_filter : ∀ m : Module,
    extractNodes m
      = ((allResources m).filter fun r => r.mode == ManagedResourceMode).map resourceToNode
  | .mk rs cs => by
    rw [extractNodes, allResources, extractNodesList_eq_filter cs]
    simp [List.filter_append]

/-- Child-module part of `extractNodes_eq_filter`. -/
theorem extractNodesList_eq_filter : ∀ ms : ModuleList,
    extractNodesList ms
      = ((allResourcesList ms).filter fun r => r.mode == ManagedResourceMode).map resourceToNode
  | .nil => rfl
  | .cons m tl => by
    rw [extractNodesList, allResourcesList, extractNodes_eq_filter m,
      extractNodesList_eq_filter tl]
    simp [List.filter_append]
end

/-! ### Edge-key set lemmas -/

theorem mem_insertEdgeKey {x k : String} {acc : List String} :
    x ∈ insertEdgeKey k acc ↔ x = k ∨ x ∈ acc := by
  rw [insertEdgeKey]
  by_cases h : k ∈ acc
  · rw [if_pos h]
    constructor
    · exact .inr
    · rintro (rfl | hx)
      · exact h
      · exact hx
  · rw [if_neg h]
    simp [or_comm]

theorem nodup_insertEdgeKey {k : String} {acc : List String} (h : acc.Nodup) :
    (insertEdgeKey k acc).Nodup := by
  rw [insertEdgeKey]
  by_cases hk : k ∈ acc
  · rw [if_pos hk]; exact h
  · rw [if_neg hk]
    simp [List.nodup_append, h, hk]

theorem foldl_mem_of_step {α : Type} {g : List String → α → List String}
    {Q : α → String → Prop}
    (hg : ∀ acc a x, x ∈ g acc a → x ∈ acc ∨ Q a x) :
    ∀ (l : List α) (acc : List String) (x : String),
      x ∈ l.foldl g acc → x ∈ acc ∨ ∃ a ∈ l, Q a x := by
  intro l
  induction l with
  | nil => intro acc x hx; exact .inl hx
  | cons a l ih =>
    intro acc x hx
    rw [List.foldl_cons] at hx
    rcases ih (g acc a) x hx with h | ⟨a2, ha2, hq⟩
    · rcases hg acc a x h with h2 | hq
      · exact .inl h2
      · exact .inr ⟨a, List.mem_cons_self a l, hq⟩
    · exact .inr ⟨a2, List.mem_cons_of_mem a ha2, hq⟩

theorem foldl_nodup_of_step {α : Type} {g : List String → α → List String}
    (hg : ∀ acc a, acc.Nodup → (g acc a).Nodup) :
    ∀ (l : List α) (acc : List String), acc.Nodup → (l.foldl g acc).Nodup := by
  intro l
  induction l with
  | nil => intro acc h; exact h
  | cons a l ih =>
    intro acc h
    rw [List.foldl_cons]
    exact ih _ (hg acc a h)

theorem mem_foldr_append {α : Type} (f : α → List String) :
    ∀ (l : List α) (x : String),
      x ∈ l.foldr (fun a acc => f a ++ acc) [] ↔ ∃ a ∈ l, x ∈ f a := by
  intro l
  induction l with
  | nil => simp
  | cons a l ih => intro x; simp [ih]

/-! ### Prior-state edge extraction lemmas -/

theorem stateResourceEdges_mem {nodes : List Node} {r : StateResource}
    {acc : List String} {x : String} (hx : x ∈ stateResourceEdges nodes r acc) :
    x ∈ acc ∨ (nodeMapContains nodes r.address = true ∧ ∃ dep ∈ r.dependsOn,
      nodeMapContains nodes dep = true ∧ x = mkEdgeKey r.address dep) := by
  rw [stateResourceEdges] at hx
  by_cases h : nodeMapContains nodes r.address = true
  · rw [if_pos h] at hx
    have step : ∀ (acc2 : List String) (dep : String) (x2 : String),
        x2 ∈ (if nodeMapContains nodes dep then
            insertEdgeKey (mkEdgeKey r.address dep) acc2 else acc2) →
        x2 ∈ acc2 ∨ (nodeMapContains nodes dep = true ∧ x2 = mkEdgeKey r.address dep) := by
      intro acc2 dep x2 hx2
      by_cases hdep : nodeMapContains nodes dep = true
      · rw [if_pos hdep] at hx2
        rcases mem_insertEdgeKey.mp hx2 with rfl | h2
        · exact .inr ⟨hdep, rfl⟩
        · exact .inl h2
      · rw [if_neg hdep] at hx2; exact .inl hx2
    rcases foldl_mem_of_step step r.dependsOn acc x hx with h2 | ⟨dep, hdep, hq⟩
    · exact .inl h2
    · exact .inr ⟨h, dep, hdep, hq.1, hq.2⟩
  · rw [if_neg h] at hx
    exact .inl hx

theorem stateResourceEdges_nodup {nodes : List Node} {r : StateResource}
    {acc : List String} (h : acc.Nodup) : (stateResourceEdges nodes r acc).Nodup := by
  rw [stateResourceEdges]
  by_cases hr : nodeMapContains nodes r.address = true
  · rw [if_pos hr]
    refine foldl_nodup_of_step ?_ r.dependsOn acc h
    intro acc2 dep hacc
    by_cases hdep : nodeMapContains nodes dep = true
    · rw [if_pos hdep]; exact nodup_insertEdgeKey hacc
    · rw [if_neg hdep]; exact hacc
  · rw [if_neg hr]; exact h

mutual
/-- Every key the prior-state pass produces either was in the
accumulator or joins an in-map resource address to one of its in-map
`depends_on` targets. -/
theorem extractEdgesFromState_mem : ∀ (sm : StateModule) (nodes : List Node)
    (acc : List String) (x : String), x ∈ extractEdgesFromState sm nodes acc →
    x ∈ acc ∨ ∃ r ∈ allStateResources sm, nodeMapContains nodes r.address = true ∧
      ∃ dep ∈ r.dependsOn, nodeMapContains nodes dep = true ∧ x = mkEdgeKey r.address dep
  | .mk rs cs, nodes, acc, x => by
    intro hx
    rw [extractEdgesFromState] at hx
    rcases extractEdgesFromStateList_mem cs nodes _ x hx with h | ⟨r, hr, hrest⟩
    · have step : ∀ (acc2 : List String) (r : StateResource) (x2 : String),
          x2 ∈ stateResourceEdges nodes r acc2 → x2 ∈ acc2 ∨
            (nodeMapContains nodes r.address = true ∧ ∃ dep ∈ r.dependsOn,
              nodeMapContains nodes dep = true ∧ x2 = mkEdgeKey r.address dep) :=
        fun _ _ _ hx2 => stateResourceEdges_mem hx2
      rcases foldl_mem_of_step step rs acc x h with h2 | ⟨r, hrs, hq⟩
      · exact .inl h2
      · exact .inr ⟨r, by rw [allStateResources]; exact List.mem_append_left _ hrs, hq⟩
    · exact .inr ⟨r, by rw [allStateResources]; exact List.mem_append_right _ hr, hrest⟩

/-- Child-module part of `extractEdgesFromState_mem`. -/
theorem extractEdgesFromStateList_mem : ∀ (ms : StateModuleList) (nodes : List Node)
    (acc : List String) (x : String), x ∈ extractEdgesFromStateList ms nodes acc →
    x ∈ acc ∨ ∃ r ∈ allStateResourcesList ms, nodeMapContains nodes r.address = true ∧
      ∃ dep ∈ r.dependsOn, nodeMapContains nodes dep = true ∧ x = mkEdgeKey r.address dep
  | .nil, nodes, acc, x => fun hx => .inl hx
  | .cons m tl, nodes, acc, x => by
    intro hx
    rw [extractEdgesFromStateList] at hx
    rcases extractEdgesFromStateList_mem tl nodes _ x hx with h | ⟨r, hr, hrest⟩
    · rcases extractEdgesFromState_mem m nodes acc x h with h2 | ⟨r, hr, hrest⟩
      · exact .inl h2
      · exact .inr ⟨r, by rw [allStateResourcesList]; exact List.mem_append_left _ hr, hrest⟩
    · exact .inr ⟨r, by rw [allStateResourcesList]; exact List.mem_append_right _ hr, hrest⟩
end

mutual
/-- The prior-state pass keeps the key list duplicate-free. -/
theorem extractEdgesFromState_nodup : ∀ (sm : StateModule) (nodes : List Node)
    (acc : List String), acc.Nodup → (extractEdgesFromState sm nodes acc).Nodup
  | .mk rs cs, nodes, acc => fun h => by
    rw [extractEdgesFromState]
    exact extractEdgesFromStateList_nodup cs nodes _
      (foldl_nodup_of_step (fun _ _ hacc => stateResourceEdges_nodup hacc) rs acc h)

/-- Child-module part of `extractEdgesFromState_nodup`. -/
theorem extractEdgesFromStateList_nodup : ∀ (ms : StateModuleList) (nodes : List Node)
    (acc : List String), acc.Nodup → (extractEdgesFromStateList ms nodes acc).Nodup
  | .nil, _, _ => fun h => h
  | .cons m tl, nodes, acc => fun h => by
    rw [extractEdgesFromStateList]
    exact extractEdgesFromStateList_nodup tl nodes _
      (extractEdgesFromState_nodup m nodes acc h)
end

/-! ### Configuration edge extraction lemmas -/

theorem configRefEdges_mem {nodeKeys : List String} {addr : String}
    {refs acc : List String} {x : String}
    (hx : x ∈ configRefEdges nodeKeys addr refs acc) :
    x ∈ acc ∨ ∃ ref ∈ refs,
      resolveResourceAddress ref nodeKeys ≠ "" ∧
      addr ≠ resolveResourceAddress ref nodeKeys ∧
      x = mkEdgeKey addr (resolveResourceAddress ref nodeKeys) := by
  rw [configRefEdges] at hx
  have step : ∀ (acc2 : List String) (ref : String) (x2 : String),
      x2 ∈ (if resolveResourceAddress ref nodeKeys != ""
            && addr != resolveResourceAddress ref nodeKeys then
          insertEdgeKey (mkEdgeKey addr (resolveResourceAddress ref nodeKeys)) acc2
        else acc2) →
      x2 ∈ acc2 ∨ (resolveResourceAddress ref nodeKeys ≠ "" ∧
        addr ≠ resolveResourceAddress ref nodeKeys ∧
        x2 = mkEdgeKey addr (resolveResourceAddress ref nodeKeys)) := by
    intro acc2 ref x2 hx2
    by_cases hcond : (resolveResourceAddress ref nodeKeys != ""
        && addr != resolveResourceAddress ref nodeKeys) = true
    · rw [if_pos hcond] at hx2
      simp only [Bool.and_eq_true, bne_iff_ne] at hcond
      rcases mem_insertEdgeKey.mp hx2 with rfl | h2
      · exact .inr ⟨hcond.1, hcond.2, rfl⟩
      · exact .inl h2
    · rw [if_neg hcond] at hx2; exact .inl hx2
  exact foldl_mem_of_step step refs acc x hx

theorem configRefEdges_nodup {nodeKeys : List String} {addr : String}
    {refs acc : List String} (h : acc.Nodup) :
    (configRefEdges nodeKeys addr refs acc).Nodup := by
  rw [configRefEdges]
  refine foldl_nodup_of_step ?_ refs acc h
  intro acc2 ref hacc
  by_cases hcond : (resolveResourceAddress ref nodeKeys != ""
      && addr != resolveResourceAddress ref nodeKeys) = true
  · rw [if_pos hcond]; exact nodup_insertEdgeKey hacc
  · rw [if_neg hcond]; exact hacc

theorem configResourceEdges_mem {nodes : List Node} {nodeKeys : List String}
    {raw : Json} {acc : List String} {x : String}
    (hx : x ∈ configResourceEdges nodes nodeKeys raw acc) :
    x ∈ acc ∨ ∃ a, nodeMapContains nodes a = true ∧ ∃ ref ∈ configResourceRefs raw,
      resolveResourceAddress ref nodeKeys ≠ "" ∧ a ≠ resolveResourceAddress ref nodeKeys ∧
      x = mkEdgeKey a (resolveResourceAddress ref nodeKeys) := by
  rw [configResourceEdges] at hx
  cases hdec : decodeConfigResource raw with
  | none => rw [hdec] at hx; exact .inl hx
  | some res =>
    rw [hdec] at hx
    have hx2 : x ∈ (if nodeMapContains nodes res.address = true then
        configRefEdges nodeKeys res.address (findReferencesInRawMessage res.expressions) acc
      else acc) := hx
    by_cases hmem : nodeMapContains nodes res.address = true
    · rw [if_pos hmem] at hx2
      rcases configRefEdges_mem hx2 with h | ⟨ref, href, hq⟩
      · exact .inl h
      · refine .inr ⟨res.address, hmem, ref, ?_, hq⟩
        rw [configResourceRefs, hdec]
        exact href
    · rw [if_neg hmem] at hx2; exact .inl hx2

theorem configResourceEdges_nodup {nodes : List Node} {nodeKeys : List String}
    {raw : Json} {acc : List String} (h : acc.Nodup) :
    (configResourceEdges nodes nodeKeys raw acc).Nodup := by
  rw [configResourceEdges]
  cases decodeConfigResource raw with
  | none => exact h
  | some res =>
    show (if nodeMapContains nodes res.address = true then
        configRefEdges nodeKeys res.address (findReferencesInRawMessage res.expressions) acc
      else acc).Nodup
    by_cases hmem : nodeMapContains nodes res.address = true
    · rw [if_pos hmem]; exact configRefEdges_nodup h
    · rw [if_neg hmem]; exact h

mutual
/-- Every key the configuration pass produces either was in the
accumulator or joins an in-map resource address to the resolved,
non-empty, non-self target of one of the collected references. -/
theorem extractEdgesFromConfig_mem : ∀ (cm : ConfigModule) (nodes : List Node)
    (nodeKeys : List String) (acc : List String) (x : String),
    x ∈ extractEdgesFromConfig cm nodes nodeKeys acc →
    x ∈ acc ∨ ∃ a, nodeMapContains nodes a = true ∧ ∃ ref ∈ allConfigRefs cm,
      resolveResourceAddress ref nodeKeys ≠ "" ∧ a ≠ resolveResourceAddress ref nodeKeys ∧
      x = mkEdgeKey a (resolveResourceAddress ref nodeKeys)
  | .mk rs calls, nodes, nodeKeys, acc, x => by
    intro hx
    rw [extractEdgesFromConfig] at hx
    rcases extractEdgesFromConfigCalls_mem calls nodes nodeKeys _ x hx with
      h | ⟨a, ha, ref, href, hq⟩
    · have step : ∀ (acc2 : List String) (raw : Json) (x2 : String),
          x2 ∈ configResourceEdges nodes nodeKeys raw acc2 → x2 ∈ acc2 ∨
            (∃ a, nodeMapContains nodes a = true ∧ ∃ ref ∈ configResourceRefs raw,
              resolveResourceAddress ref nodeKeys ≠ "" ∧
              a ≠ resolveResourceAddress ref nodeKeys ∧
              x2 = mkEdgeKey a (resolveResourceAddress ref nodeKeys)) :=
        fun _ _ _ hx2 => configResourceEdges_mem hx2
      rcases foldl_mem_of_step step rs acc x h with h2 | ⟨raw, hraw, a, ha, ref, href, hq⟩
      · exact .inl h2
      · refine .inr ⟨a, ha, ref, ?_, hq⟩
        rw [allConfigRefs]
        exact List.mem_append_left _ ((mem_foldr_append configResourceRefs rs ref).mpr
          ⟨raw, hraw, href⟩)
    · refine .inr ⟨a, ha, ref, ?_, hq⟩
      rw [allConfigRefs]
      exact List.mem_append_right _ href

/-- Module-call part of `extractEdgesFromConfig_mem`. -/
theorem extractEdgesFromConfigCalls_mem : ∀ (calls : ModuleCallList) (nodes : List Node)
    (nodeKeys : List String) (acc : List String) (x : String),
    x ∈ extractEdgesFromConfigCalls calls nodes nodeKeys acc →
    x ∈ acc ∨ ∃ a, nodeMapContains nodes a = true ∧ ∃ ref ∈ allConfigRefsCalls calls,
      resolveResourceAddress ref nodeKeys ≠ "" ∧ a ≠ resolveResourceAddress ref nodeKeys ∧
      x = mkEdgeKey a (resolveResourceAddress ref nodeKeys)
  | .nil, _, _, acc, x => fun hx => .inl hx
  | .cons nm ex m tl, nodes, nodeKeys, acc, x => by
    intro hx
    rw [extractEdgesFromConfigCalls] at hx
    rcases extractEdgesFromConfigCalls_mem tl nodes nodeKeys _ x hx with
      h | ⟨a, ha, ref, href, hq⟩
    · rcases extractEdgesFromConfig_mem m nodes nodeKeys acc x h with
        h2 | ⟨a, ha, ref, href, hq⟩
      · exact .inl h2
      · refine .inr ⟨a, ha, ref, ?_, hq⟩
        rw [allConfigRefsCalls]
        exact List.mem_append_left _ href
    · refine .inr ⟨a, ha, ref, ?_, hq⟩
      rw [allConfigRefsCalls]
      exact List.mem_append_right _ href
end

mutual
/-- The configuration pass keeps the key list duplicate-free. -/
theorem extractEdgesFromConfig_nodup : ∀ (cm : ConfigModule) (nodes : List Node)
    (nodeKeys : List String) (acc : List String), acc.Nodup →
    (extractEdgesFromConfig cm nodes nodeKeys acc).Nodup
  | .mk rs calls, nodes, nodeKeys, acc => fun h => by
    rw [extractEdgesFromConfig]
    exact extractEdgesFromConfigCalls_nodup calls nodes nodeKeys _
      (foldl_nodup_of_step (fun _ _ hacc => configResourceEdges_nodup hacc) rs acc h)

/-- Module-call part of `extractEdgesFromConfig_nodup`. -/
theorem extractEdgesFromConfigCalls_nodup : ∀ (calls : ModuleCallList) (nodes : List Node)
    (nodeKeys : List String) (acc : List String), acc.Nodup →
    (extractEdgesFromConfigCalls calls nodes nodeKeys acc).Nodup
  | .nil, _, _, _ => fun h => h
  | .cons nm ex m tl, nodes, nodeKeys, acc => fun h => by
    rw [extractEdgesFromConfigCalls]
    exact extractEdgesFromConfigCalls_nodup tl nodes nodeKeys _
      (extractEdgesFromConfig_nodup m nodes nodeKeys acc h)
end

/-! ### Store-state lemmas -/

theorem storeState_eq {a b : StoreState} (h1 : a.nodes = b.nodes)
    (h2 : a.rels = b.rels) : a = b := by
  cases a; cases b; simp_all

theorem mem_storeIds (db : StoreState) (i : String) :
    i ∈ storeIds db ↔ ∃ m ∈ db.nodes, m.id = i := by
  simp [storeIds]

theorem mergeDBNode_rels (n : DBNode) (db : StoreState) :
    (mergeDBNode n db).rels = db.rels := rfl

theorem mem_mergeDBNode_nodes (n : DBNode) (db : StoreState) (m : DBNode) :
    m ∈ (mergeDBNode n db).nodes ↔ m = n ∨ (m ∈ db.nodes ∧ m.id ≠ n.id) := by
  simp [mergeDBNode]

theorem mem_storeIds_mergeDBNode (n : DBNode) (db : StoreState) (i : String) :
    i ∈ storeIds (mergeDBNode n db) ↔ i = n.id ∨ i ∈ storeIds db := by
  simp only [mem_storeIds]
  constructor
  · rintro ⟨m, hm, rfl⟩
    rcases (mem_mergeDBNode_nodes n db m).mp hm with rfl | ⟨hm2, _⟩
    · exact .inl rfl
    · exact .inr ⟨m, hm2, rfl⟩
  · rintro (rfl | ⟨m, hm, rfl⟩)
    · exact ⟨n, (mem_mergeDBNode_nodes n db n).mpr (.inl rfl), rfl⟩
    · by_cases hid : m.id = n.id
      · exact ⟨n, (mem_mergeDBNode_nodes n db n).mpr (.inl rfl), hid.symm ▸ rfl⟩
      · exact ⟨m, (mem_mergeDBNode_nodes n db m).mpr (.inr ⟨hm, hid⟩), rfl⟩

theorem nodeFold_rels : ∀ (ds : List DBNode) (db : StoreState),
    (ds.foldl (fun db n => mergeDBNode n db) db).rels = db.rels := by
  intro ds
  induction ds with
  | nil => intro db; rfl
  | cons d ds ih =>
    intro db
    rw [List.foldl_cons, ih, mergeDBNode_rels]

theorem mem_storeIds_nodeFold : ∀ (ds : List DBNode) (db : StoreState) (i : String),
    i ∈ storeIds (ds.foldl (fun db n => mergeDBNode n db) db) ↔
      i ∈ storeIds db ∨ i ∈ ds.map DBNode.id := by
  intro ds
  induction ds with
  | nil => intro db i; simp
  | cons d ds ih =>
    intro db i
    rw [List.foldl_cons, ih, mem_storeIds_mergeDBNode]
    simp
    tauto

theorem mem_nodeFold_nodes : ∀ (ds : List DBNode) (db : StoreState) (m : DBNode),
    m ∈ (ds.foldl (fun db n => mergeDBNode n db) db).nodes ↔
      (m ∈ db.nodes ∧ m.id ∉ ds.map DBNode.id) ∨
      (ds.filter fun d => d.id == m.id).getLast? = some m := by
  intro ds
  induction ds using List.reverseRecOn with
  | nil => intro db m; simp
  | append_singleton ds d ih =>
    intro db m
    rw [List.foldl_append, List.foldl_cons, List.foldl_nil, mem_mergeDBNode_nodes, ih]
    by_cases hid : d.id = m.id
    · have hbeq : (d.id == m.id) = true := beq_iff_eq.mpr hid
      simp only [List.filter_append, List.filter_cons, List.filter_nil, hbeq, if_pos,
        List.getLast?_concat, List.map_append, List.map_cons, List.map_nil,
        List.mem_append, List.mem_singleton]
      constructor
      · rintro (rfl | ⟨_, hne⟩)
        · exact .inr rfl
        · exact absurd hid.symm hne
      · rintro (⟨_, hids⟩ | heq)
        · exact absurd hid (fun h => hids (.inr h.symm))
        · exact .inl (Option.some_inj.mp heq).symm
    · have hbeq : (d.id == m.id) = false := beq_eq_false_iff_ne.mpr hid
      simp only [List.filter_append, List.filter_cons, List.filter_nil, hbeq,
        Bool.false_eq_true, if_false, List.append_nil, List.map_append, List.map_cons,
        List.map_nil, List.mem_append, List.mem_singleton]
      constructor
      · rintro (rfl | ⟨h1, h2⟩)
        · exact absurd rfl hid
        · rcases h1 with ⟨hdb, hids⟩ | hlast
          · exact .inl ⟨hdb, fun h => by
              rcases h with h | h
              · exact hids h
              · exact (hid h.symm).elim⟩
          · exact .inr hlast
      · rintro (⟨hdb, hids⟩ | hlast)
        · exact .inr ⟨.inl ⟨hdb, fun h => hids (.inl h)⟩, fun h => hid h.symm⟩
        · exact .inr ⟨.inr hlast, fun h => hid h.symm⟩

theorem mergeRel_nodes (p : String × String) (db : StoreState) :
    (mergeRel p db).nodes = db.nodes := by
  rw [mergeRel]
  split <;> rfl

theorem storeIds_mergeRel (p : String × String) (db : StoreState) :
    storeIds (mergeRel p db) = storeIds db := by
  rw [storeIds, mergeRel_nodes]
  rfl

theorem relFold_nodes : ∀ (es : List (String × String)) (db : StoreState),
    (es.foldl (fun db p => mergeRel p db) db).nodes = db.nodes := by
  intro es
  induction es with
  | nil => intro db; rfl
  | cons q es ih =>
    intro db
    rw [List.foldl_cons, ih, mergeRel_nodes]

theorem mem_mergeRel_rels (q : String × String) (db : StoreState) (p : String × String) :
    p ∈ (mergeRel q db).rels ↔ p ∈ db.rels ∨
      (p = q ∧ q.1 ∈ storeIds db ∧ q.2 ∈ storeIds db) := by
  rw [mergeRel]
  by_cases hcond : q.1 ∈ storeIds db ∧ q.2 ∈ storeIds db
  · rw [if_pos hcond]
    simp only [Finset.mem_insert]
    tauto
  · rw [if_neg hcond]
    tauto

theorem mem_relFold_rels : ∀ (es : List (String × String)) (db : StoreState)
    (p : String × String),
    p ∈ (es.foldl (fun db q => mergeRel q db) db).rels ↔
      p ∈ db.rels ∨ (p ∈ es ∧ p.1 ∈ storeIds db ∧ p.2 ∈ storeIds db) := by
  intro es
  induction es with
  | nil => intro db p; simp
  | cons q es ih =>
    intro db p
    rw [List.foldl_cons, ih, mem_mergeRel_rels, storeIds_mergeRel, List.mem_cons]
    constructor
    · rintro ((hdb | ⟨rfl, h1, h2⟩) | ⟨hes, h1, h2⟩)
      · exact .inl hdb
      · exact .inr ⟨.inl rfl, h1, h2⟩
      · exact .inr ⟨.inr hes, h1, h2⟩
    · rintro (hdb | ⟨rfl | hes, h1, h2⟩)
      · exact .inl (.inl hdb)
      · exact .inl (.inr ⟨rfl, h1, h2⟩)
      · exact .inr ⟨hes, h1, h2⟩

/-! ### Synchronizer characterizations -/

theorem mem_obsoleteIds (g : Graph) (db : StoreState) (i : String) :
    i ∈ obsoleteIds g db ↔ i ∈ storeIds db ∧ i ∉ g.nodes.map Node.id := by
  simp [obsoleteIds]

theorem mem_deleteStep_nodes (g : Graph) (db : StoreState) (m : DBNode) :
    m ∈ (if obsoleteIds g db = ∅ then db else detachDelete (obsoleteIds g db) db).nodes ↔
      m ∈ db.nodes ∧ m.id ∉ obsoleteIds g db := by
  by_cases hobs : obsoleteIds g db = ∅
  · rw [if_pos hobs, hobs]
    simp
  · rw [if_neg hobs]
    simp [detachDelete]

theorem mem_deleteStep_rels (g : Graph) (db : StoreState) (p : String × String) :
    p ∈ (if obsoleteIds g db = ∅ then db else detachDelete (obsoleteIds g db) db).rels ↔
      p ∈ db.rels ∧ p.1 ∉ obsoleteIds g db ∧ p.2 ∉ obsoleteIds g db := by
  by_cases hobs : obsoleteIds g db = ∅
  · rw [if_pos hobs, hobs]
    simp
  · rw [if_neg hobs]
    simp [detachDelete]

theorem ToCypherTransaction_nodesData (g : Graph) :
    (ToCypherTransaction g).nodesData = g.nodes.map nodeToDB := rfl

theorem nodesData_ids (g : Graph) :
    (g.nodes.map nodeToDB).map DBNode.id = g.nodes.map Node.id := by
  rw [List.map_map]
  rfl

theorem mem_UpdateGraph_nodes (g : Graph) (db : StoreState) (m : DBNode) :
    m ∈ (UpdateGraph g db).nodes ↔
      ((g.nodes.map nodeToDB).filter fun d => d.id == m.id).getLast? = some m := by
  have hnodes : (UpdateGraph g db).nodes
      = (((ToCypherTransaction g).nodesData).foldl (fun db n => mergeDBNode n db)
          (if obsoleteIds g db = ∅ then db else detachDelete (obsoleteIds g db) db)).nodes := by
    rw [UpdateGraph, runCypherTx]
    by_cases h1 : (ToCypherTransaction g).nodesData.isEmpty = true
    · rw [if_pos h1]
    · rw [if_neg h1]
      by_cases h2 : (ToCypherTransaction g).hasEdgeClause = true
      · rw [if_pos h2, relFold_nodes]
      · rw [if_neg h2]
  rw [hnodes, mem_nodeFold_nodes, ToCypherTransaction_nodesData, nodesData_ids]
  constructor
  · rintro (⟨hdb1, hids⟩ | hlast)
    · exfalso
      obtain ⟨hdb, hobs⟩ := (mem_deleteStep_nodes g db m).mp hdb1
      rw [mem_obsoleteIds] at hobs
      exact hids (by
        by_contra hni
        exact hobs ⟨(mem_storeIds db m.id).mpr ⟨m, hdb, rfl⟩, hni⟩)
    · exact hlast
  · exact .inr

theorem mem_storeIds_UpdateGraph (g : Graph) (db : StoreState) (i : String) :
    i ∈ storeIds (UpdateGraph g db) ↔ i ∈ g.nodes.map Node.id := by
  rw [mem_storeIds]
  constructor
  · rintro ⟨m, hm, rfl⟩
    have hlast := (mem_UpdateGraph_nodes g db m).mp hm
    have hmem := List.mem_of_getLast?_eq_some hlast
    have hm2 : m ∈ g.nodes.map nodeToDB := List.mem_of_mem_filter hmem
    rw [← nodesData_ids]
    exact List.mem_map_of_mem DBNode.id hm2
  · intro hi
    rw [← nodesData_ids] at hi
    obtain ⟨d, hd, rfl⟩ := List.mem_map.mp hi
    have hne : (g.nodes.map nodeToDB).filter (fun x => x.id == d.id) ≠ [] := by
      intro hnil
      have : d ∈ (g.nodes.map nodeToDB).filter (fun x => x.id == d.id) :=
        List.mem_filter.mpr ⟨hd, beq_self_eq_true _⟩
      rw [hnil] at this
      exact absurd this (List.not_mem_nil d)
    cases hlast : ((g.nodes.map nodeToDB).filter fun x => x.id == d.id).getLast? with
    | none => exact absurd (List.getLast?_eq_none_iff.mp hlast) hne
    | some m =>
      have hmf := List.mem_of_getLast?_eq_some hlast
      have hp := List.of_mem_filter hmf
      have hmid : m.id = d.id := beq_iff_eq.mp hp
      refine ⟨m, (mem_UpdateGraph_nodes g db m).mpr ?_, hmid⟩
      rw [show (fun x : DBNode => x.id == m.id) = fun x : DBNode => x.id == d.id from by
        funext x; rw [hmid]]
      exact hlast

theorem mem_UpdateGraph_rels (g : Graph) (db : StoreState) (p : String × String) :
    p ∈ (UpdateGraph g db).rels ↔
      (p ∈ db.rels ∧ p.1 ∉ obsoleteIds g db ∧ p.2 ∉ obsoleteIds g db) ∨
      (g.nodes ≠ [] ∧ g.edges ≠ [] ∧ p ∈ g.edges.map (fun e => (e.«from», e.«to»)) ∧
        p.1 ∈ g.nodes.map Node.id ∧ p.2 ∈ g.nodes.map Node.id) := by
  rw [UpdateGraph, runCypherTx]
  by_cases hn : g.nodes = []
  · have hemp : (ToCypherTransaction g).nodesData.isEmpty = true := by
      rw [ToCypherTransaction_nodesData, hn]
      rfl
    rw [if_pos hemp, nodeFold_rels, mem_deleteStep_rels]
    simp [hn]
  · have hemp : ¬(ToCypherTransaction g).nodesData.isEmpty = true := by
      rw [ToCypherTransaction_nodesData]
      simp [hn]
    rw [if_neg hemp]
    by_cases he : g.edges = []
    · have hcl : ¬(ToCypherTransaction g).hasEdgeClause = true := by
        simp [ToCypherTransaction, he]
      rw [if_neg hcl, nodeFold_rels, mem_deleteStep_rels]
      simp [he]
    · have hcl : (ToCypherTransaction g).hasEdgeClause = true := by
        simp [ToCypherTransaction, he]
      rw [if_pos hcl, mem_relFold_rels, nodeFold_rels, mem_deleteStep_rels]
      have hids : ∀ i : String,
          i ∈ storeIds ((ToCypherTransaction g).nodesData.foldl
            (fun db n => mergeDBNode n db)
            (if obsoleteIds g db = ∅ then db else detachDelete (obsoleteIds g db) db)) ↔
          i ∈ g.nodes.map Node.id := by
        intro i
        rw [mem_storeIds_nodeFold, ToCypherTransaction_nodesData, nodesData_ids]
        constructor
        · rintro (hdb1 | hg)
          · obtain ⟨m, hm, rfl⟩ := (mem_storeIds _ i).mp hdb1
            obtain ⟨hdb, hobs⟩ := (mem_deleteStep_nodes g db m).mp hm
            rw [mem_obsoleteIds] at hobs
            by_contra hni
            exact hobs ⟨(mem_storeIds db m.id).mpr ⟨m, hdb, rfl⟩, hni⟩
          · exact hg
        · exact .inr
      have hed : (ToCypherTransaction g).edgesData = g.edges.map fun e => (e.«from», e.«to») := by
        simp [ToCypherTransaction, he]
      rw [hed]
      constructor
      · rintro (hdb1 | ⟨hpe, h1, h2⟩)
        · exact .inl hdb1
        · exact .inr ⟨hn, he, hpe, (hids p.1).mp h1, (hids p.2).mp h2⟩
      · rintro (hdb1 | ⟨_, _, hpe, h1, h2⟩)
        · exact .inl hdb1
        · exact .inr ⟨hpe, (hids p.1).mpr h1, (hids p.2).mpr h2⟩

/-! ### Remaining helper lemmas -/

theorem findMatchingKey_first (ref key : String) : ∀ (keys1 keys2 : List String),
    (∀ k ∈ keys1, (ref == k || goStartsWith ref (k ++ ".")
      || goStartsWith ref (k ++ "[")) = false) →
    (ref == key || goStartsWith ref (key ++ ".") || goStartsWith ref (key ++ "[")) = true →
    findMatchingKey ref (keys1 ++ key :: keys2) = some key := by
  intro keys1
  induction keys1 with
  | nil =>
    intro keys2 _ hkey
    rw [List.nil_append, findMatchingKey, if_pos hkey]
  | cons k1 keys1 ih =>
    intro keys2 hnone hkey
    have h1 := hnone k1 (List.mem_cons_self k1 keys1)
    rw [List.cons_append, findMatchingKey, if_neg (by simp [h1])]
    exact ih keys2 (fun k hk => hnone k (List.mem_cons_of_mem k1 hk)) hkey

theorem resolveResourceAddress_first_match (ref : String) (keys1 keys2 : List String)
    (key : String)
    (hvar : headSegmentIs (goSplit ref ".") "var" = false)
    (hloc : headSegmentIs (goSplit ref ".") "local" = false)
    (hnone : ∀ k ∈ keys1, (ref == k || goStartsWith ref (k ++ ".")
      || goStartsWith ref (k ++ "[")) = false)
    (hkey : (ref == key || goStartsWith ref (key ++ ".")
      || goStartsWith ref (key ++ "[")) = true) :
    resolveResourceAddress ref (keys1 ++ key :: keys2) = key := by
  rw [resolveResourceAddress]
  simp only [hvar, hloc, Bool.or_self, Bool.false_eq_true, if_false,
    findMatchingKey_first ref key keys1 keys2 hnone hkey]

theorem mem_findRefsInList {r : String} :
    ∀ {j : Json} {items : JsonList}, JsonMem j items →
      r ∈ findReferencesInRawMessage j → r ∈ findRefsInList items
  | _, _, .head j tl, hr => by
    rw [findRefsInList]
    exact List.mem_append_left _ hr
  | _, _, .tail j j2 tl hm, hr => by
    rw [findRefsInList]
    exact List.mem_append_right _ (mem_findRefsInList hm hr)

theorem mem_findRefsInFields {r : String} :
    ∀ {k : String} {v : Json} {fields : JsonFields}, FieldMem k v fields →
      r ∈ findReferencesInRawMessage v → r ∈ findRefsInFields fields
  | _, _, _, .head k v tl, hr => by
    rw [findRefsInFields]
    exact List.mem_append_left _ hr
  | _, _, _, .tail k k2 v v2 tl hm, hr => by
    rw [findRefsInFields]
    exact List.mem_append_right _ (mem_findRefsInFields hm hr)

/-- The edge-key list `Build` materializes, written out. -/
theorem build_edges_eq (plan : TerraformPlan) :
    (Build plan).edges = convertEdgesToSlice
      (if (extractEdgesFromState plan.priorStateRoot (extractNodes plan.plannedRoot) []).isEmpty then
        extractEdgesFromConfig plan.configRoot (extractNodes plan.plannedRoot)
          (createNodeLookupKeys (extractNodes plan.plannedRoot)) []
      else extractEdgesFromState plan.priorStateRoot (extractNodes plan.plannedRoot) []) := rfl

/-- Shape of every key `Build` can materialize, under space-free node ids
and references: an edge key of two space-free components. -/
theorem build_keys_shape (plan : TerraformPlan)
    (hids : ∀ n ∈ extractNodes plan.plannedRoot, hasNoSpace n.id = true)
    (hrefs : ∀ ref ∈ allConfigRefs plan.configRoot, hasNoSpace ref = true) :
    ∀ k ∈ (if (extractEdgesFromState plan.priorStateRoot (extractNodes plan.plannedRoot) []).isEmpty then
        extractEdgesFromConfig plan.configRoot (extractNodes plan.plannedRoot)
          (createNodeLookupKeys (extractNodes plan.plannedRoot)) []
      else extractEdgesFromState plan.priorStateRoot (extractNodes plan.plannedRoot) []),
      ∃ a b, k = mkEdgeKey a b ∧ hasNoSpace a = true ∧ hasNoSpace b = true := by
  intro k hk
  by_cases hS : (extractEdgesFromState plan.priorStateRoot
      (extractNodes plan.plannedRoot) []).isEmpty = true
  · rw [if_pos hS] at hk
    rcases extractEdgesFromConfig_mem _ _ _ _ _ hk with h | ⟨a, ha, ref, href, hne, hda, rfl⟩
    · exact absurd h (List.not_mem_nil k)
    · obtain ⟨n, hn, rfl⟩ := nodeMapContains_iff.mp ha
      refine ⟨n.id, _, rfl, hids n hn, ?_⟩
      refine hasNoSpace_resolve (hrefs ref href) ?_
      intro key hkey
      obtain ⟨n2, hn2, rfl⟩ := List.mem_map.mp (mem_createNodeLookupKeys.mp hkey)
      exact hids n2 hn2
  · rw [if_neg hS] at hk
    rcases extractEdgesFromState_mem _ _ _ _ hk with h | ⟨r, hr, haddr, dep, hdep, hdepc, rfl⟩
    · exact absurd h (List.not_mem_nil k)
    · obtain ⟨n, hn, hnid⟩ := nodeMapContains_iff.mp haddr
      obtain ⟨n2, hn2, hnid2⟩ := nodeMapContains_iff.mp hdepc
      exact ⟨r.address, dep, rfl, hnid ▸ hids n hn, hnid2 ▸ hids n2 hn2⟩

/-! ### Claim theorems -/

/-- C1.  For every Graph `g` and every store state, running the
synchronizer twice with the same `g` leaves the persisted state after
the second run identical to the state after the first run: no duplicate
nodes, no duplicate edges, no residual obsolete entities. -/
theorem sync_idempotent : ∀ (g : Graph) (db : StoreState),
    UpdateGraph g (UpdateGraph g db) = UpdateGraph g db := by
  intro g db
  have hobs : ∀ i : String, i ∉ obsoleteIds g (UpdateGraph g db) := by
    intro i hi
    rw [mem_obsoleteIds, mem_storeIds_UpdateGraph] at hi
    exact hi.2 hi.1
  apply storeState_eq
  · apply Finset.ext
    intro m
    rw [mem_UpdateGraph_nodes, mem_UpdateGraph_nodes]
  · apply Finset.ext
    intro p
    rw [mem_UpdateGraph_rels g (UpdateGraph g db) p]
    constructor
    · rintro (⟨hp, _, _⟩ | hD)
      · exact hp
      · exact (mem_UpdateGraph_rels g db p).mpr (.inr hD)
    · intro hp
      exact .inl ⟨hp, hobs p.1, hobs p.2⟩

/-- C2, counterexample.  Syncing a graph with edge `a → b` and then a
graph with the same two nodes but no edge leaves the relationship
behind: `sync(G1); sync(G2)` differs from `sync(G2)` alone, because
`UpdateGraph` never deletes a relationship whose two endpoint nodes both
survive. -/
theorem sync_not_convergent_counterexample :
    UpdateGraph gNoEdge (UpdateGraph gEdge emptyStore) ≠ UpdateGraph gNoEdge emptyStore := by
  decide

/-- C2, amended.  Node sets always converge: after `sync(G1); sync(G2)`
the persisted nodes equal those after `sync(G2)` alone, for every
starting state.  The full persisted state converges from the empty store
provided every relationship persisted by `sync(G1)` whose two endpoints
both occur among G2's node ids is also persisted by `sync(G2)` —
relationships between two surviving nodes are the one kind of obsolete
entity the synchronizer does not delete. -/
theorem sync_convergence_amended :
    (∀ (g1 g2 : Graph) (db : StoreState),
      (UpdateGraph g2 (UpdateGraph g1 db)).nodes = (UpdateGraph g2 db).nodes)
    ∧ (∀ g1 g2 : Graph,
      (∀ p ∈ (UpdateGraph g1 emptyStore).rels,
        p.1 ∈ g2.nodes.map Node.id → p.2 ∈ g2.nodes.map Node.id →
        p ∈ (UpdateGraph g2 emptyStore).rels) →
      UpdateGraph g2 (UpdateGraph g1 emptyStore) = UpdateGraph g2 emptyStore) := by
  constructor
  · intro g1 g2 db
    apply Finset.ext
    intro m
    rw [mem_UpdateGraph_nodes, mem_UpdateGraph_nodes]
  · intro g1 g2 hres
    apply storeState_eq
    · apply Finset.ext
      intro m
      rw [mem_UpdateGraph_nodes, mem_UpdateGraph_nodes]
    · apply Finset.ext
      intro p
      constructor
      · intro hp
        rcases (mem_UpdateGraph_rels g2 (UpdateGraph g1 emptyStore) p).mp hp with
          ⟨hp1, h1, h2⟩ | hD
        · have hep : p.1 ∈ g1.nodes.map Node.id ∧ p.2 ∈ g1.nodes.map Node.id := by
            rcases (mem_UpdateGraph_rels g1 emptyStore p).mp hp1 with
              ⟨hfalse, _, _⟩ | ⟨_, _, _, ha, hb⟩
            · exact absurd hfalse (by simp [emptyStore])
            · exact ⟨ha, hb⟩
          have h1' : p.1 ∈ g2.nodes.map Node.id := by
            by_contra hni
            exact h1 ((mem_obsoleteIds g2 (UpdateGraph g1 emptyStore) p.1).mpr
              ⟨(mem_storeIds_UpdateGraph g1 emptyStore p.1).mpr hep.1, hni⟩)
          have h2' : p.2 ∈ g2.nodes.map Node.id := by
            by_contra hni
            exact h2 ((mem_obsoleteIds g2 (UpdateGraph g1 emptyStore) p.2).mpr
              ⟨(mem_storeIds_UpdateGraph g1 emptyStore p.2).mpr hep.2, hni⟩)
          exact hres p hp1 h1' h2'
        · exact (mem_UpdateGraph_rels g2 emptyStore p).mpr (.inr hD)
      · intro hp
        rcases (mem_UpdateGraph_rels g2 emptyStore p).mp hp with ⟨hfalse, _, _⟩ | hD
        · exact absurd hfalse (by simp [emptyStore])
        · exact (mem_UpdateGraph_rels g2 (UpdateGraph g1 emptyStore) p).mpr (.inr hD)

/-- C2, amended, witness: dropping node `a` from the target graph also
cascades its relationship, so the two-step and one-step syncs agree. -/
theorem sync_convergence_amended_witness :
    UpdateGraph gOnlyB (UpdateGraph gEdge emptyStore) = UpdateGraph gOnlyB emptyStore :=
  sync_convergence_amended.2 gEdge gOnlyB (by decide)

/-- C3.  All store operations of `UpdateGraph` run inside one write
transaction: when any of them fails the call returns a single error and
the persisted state is exactly the state before the call; on success the
persisted state is the full synchronization result.  (The rollback
behaviour of the external driver's managed transaction is modelled from
the specification, §4.3/§7.) -/
theorem updateGraph_transaction_atomic :
    ∀ (f : TxFailure) (g : Graph) (db : StoreState),
      (∀ e, (runUpdateGraph f g db).1 = .error e → (runUpdateGraph f g db).2 = db)
      ∧ (∀ s, (runUpdateGraph f g db).1 = .ok s →
          s = UpdateGraph g db ∧ (runUpdateGraph f g db).2 = UpdateGraph g db)
      ∧ ((f.failQueryIds = true ∨ f.failUpsert = true ∨
          (f.failDelete = true ∧ obsoleteIds g db ≠ ∅)) →
          ∃ e, (runUpdateGraph f g db).1 = .error e ∧ (runUpdateGraph f g db).2 = db) := by
  intro f g db
  rw [runUpdateGraph]
  cases htx : updateGraphTx f g db with
  | error e0 =>
    refine ⟨fun e he => rfl, fun s hs => absurd hs (by simp), fun _ => ⟨_, rfl, rfl⟩⟩
  | ok db2 =>
    have hdb2 : db2 = UpdateGraph g db := by
      rw [updateGraphTx] at htx
      by_cases h1 : f.failQueryIds = true
      · rw [if_pos h1] at htx; cases htx
      · rw [if_neg h1] at htx
        by_cases h2 : obsoleteIds g db ≠ ∅ ∧ f.failDelete = true
        · rw [if_pos h2] at htx; cases htx
        · rw [if_neg h2] at htx
          by_cases h3 : f.failUpsert = true
          · rw [if_pos h3] at htx; cases htx
          · rw [if_neg h3] at htx
            cases htx
            rw [UpdateGraph]
    refine ⟨fun e he => absurd he (by simp), fun s hs => ?_, fun hfail => ?_⟩
    · have hs2 : db2 = s := by simpa using hs
      subst hs2
      exact ⟨hdb2, hdb2⟩
    · exfalso
      rw [updateGraphTx] at htx
      by_cases h1 : f.failQueryIds = true
      · rw [if_pos h1] at htx; cases htx
      · rw [if_neg h1] at htx
        by_cases h2 : obsoleteIds g db ≠ ∅ ∧ f.failDelete = true
        · rw [if_pos h2] at htx; cases htx
        · rw [if_neg h2] at htx
          by_cases h3 : f.failUpsert = true
          · rw [if_pos h3] at htx; cases htx
          · rcases hfail with hf | hf | ⟨hfd, hfo⟩
            · exact h1 hf
            · exact h3 hf
            · exact h2 ⟨hfo, hfd⟩

/-- C3, witness: with the id query failing on a concrete graph and the
empty store, the call returns the single wrapped error and the persisted
state is unchanged. -/
theorem updateGraph_transaction_atomic_witness :
    (runUpdateGraph ⟨true, false, false⟩ gEdge emptyStore).1
      = .error "failed to execute transaction to update graph: failed to query current resources"
    ∧ (runUpdateGraph ⟨true, false, false⟩ gEdge emptyStore).2 = emptyStore :=
  ⟨rfl, (updateGraph_transaction_atomic ⟨true, false, false⟩ gEdge emptyStore).1 _ rfl⟩

/-- C4, counterexample.  For the reference `"var.x"` and known addresses
`["var.x"]` the scan's first match is `"var.x"`, yet the resolver
returns the empty string: the variable/local filter precedes the
longest-match scan, so the claim fails for references whose first
segment is `var` or `local`. -/
theorem resolver_var_reference_counterexample :
    ("var.x" == "var.x" || goStartsWith "var.x" ("var.x" ++ ".")
      || goStartsWith "var.x" ("var.x" ++ "[")) = true
    ∧ resolveResourceAddress "var.x" ["var.x"] = "" := by
  decide

/-- C4, amended.  The node-key list is sorted longest first; for every
reference whose first dot-segment is neither `var` nor `local`, the
resolver returns the first address of the key list that the reference
equals, or extends with `"."`, or extends with `"["`; in particular the
spec's concrete instance resolves to the longer address. -/
theorem resolver_longest_match_amended :
    (∀ nodes : List Node,
      List.Sorted (fun a b : String => b.length ≤ a.length) (createNodeLookupKeys nodes))
    ∧ (∀ (ref : String) (keys1 keys2 : List String) (key : String),
        headSegmentIs (goSplit ref ".") "var" = false →
        headSegmentIs (goSplit ref ".") "local" = false →
        (∀ k ∈ keys1, (ref == k || goStartsWith ref (k ++ ".")
          || goStartsWith ref (k ++ "[")) = false) →
        (ref == key || goStartsWith ref (key ++ ".")
          || goStartsWith ref (key ++ "[")) = true →
        resolveResourceAddress ref (keys1 ++ key :: keys2) = key)
    ∧ resolveResourceAddress "module.x.aws_instance.foo.id"
        (createNodeLookupKeys [⟨"module.x", "t", "p", "n", .nil⟩,
          ⟨"module.x.aws_instance.foo", "t", "p", "n", .nil⟩]) = "module.x.aws_instance.foo" :=
  ⟨createNodeLookupKeys_sorted, resolveResourceAddress_first_match, by decide⟩

/-- C4, amended, witness: the longest-match rule applied at a concrete
non-variable reference. -/
theorem resolver_longest_match_amended_witness :
    resolveResourceAddress "module.x.aws_instance.foo.id"
      ["module.x.aws_instance.foo", "module.x"] = "module.x.aws_instance.foo" :=
  resolver_longest_match_amended.2.1 "module.x.aws_instance.foo.id"
    [] ["module.x"] "module.x.aws_instance.foo"
    (by decide) (by decide) (by decide) (by decide)

/-- C5.  `Build` derives edges from the prior-state `depends_on` lists,
keeping only keys whose two endpoints are existing node ids; the
configuration scan is consulted exactly when that pass yields zero
edges, and then its edges become the Graph's edges. -/
theorem build_state_primary_config_fallback :
    ∀ plan : TerraformPlan,
      (extractEdgesFromState plan.priorStateRoot (extractNodes plan.plannedRoot) [] = [] →
        (Build plan).edges = convertEdgesToSlice (extractEdgesFromConfig plan.configRoot
          (extractNodes plan.plannedRoot)
          (createNodeLookupKeys (extractNodes plan.plannedRoot)) []))
      ∧ (extractEdgesFromState plan.priorStateRoot (extractNodes plan.plannedRoot) [] ≠ [] →
        (Build plan).edges = convertEdgesToSlice
          (extractEdgesFromState plan.priorStateRoot (extractNodes plan.plannedRoot) []))
      ∧ (∀ k ∈ extractEdgesFromState plan.priorStateRoot (extractNodes plan.plannedRoot) [],
          ∃ a b, k = mkEdgeKey a b ∧ nodeMapContains (extractNodes plan.plannedRoot) a = true
            ∧ nodeMapContains (extractNodes plan.plannedRoot) b = true) := by
  intro plan
  refine ⟨?_, ?_, ?_⟩
  · intro h
    rw [build_edges_eq, h]
    rfl
  · intro h
    have hne : (extractEdgesFromState plan.priorStateRoot
        (extractNodes plan.plannedRoot) []).isEmpty = false := by
      cases hS : extractEdgesFromState plan.priorStateRoot (extractNodes plan.plannedRoot) [] with
      | nil => exact absurd hS h
      | cons a l => rfl
    rw [build_edges_eq, hne]
    rfl
  · intro k hk
    rcases extractEdgesFromState_mem _ _ _ _ hk with h | ⟨r, _, haddr, dep, _, hdepc, rfl⟩
    · exact absurd h (List.not_mem_nil k)
    · exact ⟨r.address, dep, rfl, haddr, hdepc⟩

/-- C5, witness: on the §8 scenario the prior-state pass is empty and
the configuration-derived edges become the Graph's edges. -/
theorem build_state_primary_config_fallback_witness :
    extractEdgesFromState scenarioPlan.priorStateRoot (extractNodes scenarioPlan.plannedRoot) [] = []
    ∧ (Build scenarioPlan).edges = convertEdgesToSlice (extractEdgesFromConfig scenarioPlan.configRoot
        (extractNodes scenarioPlan.plannedRoot)
        (createNodeLookupKeys (extractNodes scenarioPlan.plannedRoot)) []) :=
  ⟨by decide, (build_state_primary_config_fallback scenarioPlan).1 (by decide)⟩

/-- C6, counterexample.  In a payload whose top-level object carries a
`references` list, a second `references` list nested inside a sibling
value is never visited: the scan stops descending at any object with a
`references` key, so `"b"` is never passed to the resolver although it
sits in a references list at depth two. -/
theorem findReferences_shadowed_list_counterexample :
    allRefLists shadowedPayload = ["a", "b"]
    ∧ findReferencesInRawMessage shadowedPayload = ["a"]
    ∧ "b" ∉ findReferencesInRawMessage shadowedPayload := by
  refine ⟨by decide, by decide, by decide⟩

/-- C6, amended.  The scan recurses into both container kinds to any
depth and collects every `references` list of strings whose path from
the payload root passes only through arrays and through objects not
themselves carrying a `references` key (an object with such a key is
treated as a leaf expression); every string of such a list is collected
and hence passed to the resolver. -/
theorem findReferences_reaches_unshadowed_lists :
    ∀ (j : Json) (refs : List String), HoldsRefs j refs →
      ∀ r ∈ refs, r ∈ findReferencesInRawMessage j := by
  intro j refs h
  induction h with
  | here fields v refs hlook hstr =>
    intro r hr
    simp only [findReferencesInRawMessage, hlook, hstr]
    exact hr
  | inArr items j refs hmem hrefs ih =>
    intro r hr
    exact mem_findRefsInList hmem (ih r hr)
  | inObj fields k v refs hlook hfm hrefs ih =>
    intro r hr
    simp only [findReferencesInRawMessage, hlook]
    exact mem_findRefsInFields hfm (ih r hr)

/-- C6, amended, witness: a references list below an array is reached. -/
theorem findReferences_reaches_unshadowed_lists_witness :
    "w" ∈ findReferencesInRawMessage nestedPayload :=
  findReferences_reaches_unshadowed_lists nestedPayload ["w"]
    (.inArr _ _ _ (.head _ _) (.here _ _ _ rfl rfl)) "w" (by decide)

/-- C7, counterexample.  A prior-state resource listing itself in
`depends_on` yields a self-loop edge: `extractEdgesFromState` has no
self-dependency check, so the Graph returned by `Build` contains an edge
with `from = to`. -/
theorem build_self_loop_counterexample :
    ∃ e, e ∈ (Build selfDepPlan).edges ∧ e.«from» = e.«to» :=
  ⟨⟨"a", "a", "DEPENDS_ON"⟩, by decide, rfl⟩

/-- C7, amended.  Every edge of `Build`'s graph has `from ≠ to` — and in
particular a resource whose expression references itself produces zero
edges for that pair — provided node ids and collected references are
space-free (so edge keys decode unambiguously) and no prior-state
resource lists its own address in `depends_on` (the configuration scan
filters self-references; the prior-state pass does not). -/
theorem build_no_self_loop_amended :
    ∀ plan : TerraformPlan,
      (∀ n ∈ extractNodes plan.plannedRoot, hasNoSpace n.id = true) →
      (∀ ref ∈ allConfigRefs plan.configRoot, hasNoSpace ref = true) →
      (∀ r ∈ allStateResources plan.priorStateRoot, r.address ∉ r.dependsOn) →
      ∀ e ∈ (Build plan).edges, e.«from» ≠ e.«to» := by
  intro plan hids hrefs hself e he
  rw [build_edges_eq, convertEdgesToSlice] at he
  obtain ⟨k, hk, rfl⟩ := List.mem_map.mp he
  have hshape : ∃ a b, k = mkEdgeKey a b ∧ hasNoSpace a = true ∧ hasNoSpace b = true
      ∧ a ≠ b := by
    by_cases hS : (extractEdgesFromState plan.priorStateRoot
        (extractNodes plan.plannedRoot) []).isEmpty = true
    · rw [if_pos hS] at hk
      rcases extractEdgesFromConfig_mem _ _ _ _ _ hk with h | ⟨a, ha, ref, href, hne, hda, rfl⟩
      · exact absurd h (List.not_mem_nil k)
      · obtain ⟨n, hn, rfl⟩ := nodeMapContains_iff.mp ha
        refine ⟨n.id, _, rfl, hids n hn, ?_, hda⟩
        refine hasNoSpace_resolve (hrefs ref href) ?_
        intro key hkey
        obtain ⟨n2, hn2, rfl⟩ := List.mem_map.mp (mem_createNodeLookupKeys.mp hkey)
        exact hids n2 hn2
    · rw [if_neg hS] at hk
      rcases extractEdgesFromState_mem _ _ _ _ hk with h | ⟨r, hr, haddr, dep, hdep, hdepc, rfl⟩
      · exact absurd h (List.not_mem_nil k)
      · obtain ⟨n, hn, hnid⟩ := nodeMapContains_iff.mp haddr
        obtain ⟨n2, hn2, hnid2⟩ := nodeMapContains_iff.mp hdepc
        refine ⟨r.address, dep, rfl, hnid ▸ hids n hn, hnid2 ▸ hids n2 hn2, ?_⟩
        intro heq
        exact hself r hr (heq ▸ hdep)
  obtain ⟨a, b, rfl, hsa, hsb, hab⟩ := hshape
  rw [edgeKeyToEdge_mkEdgeKey hsa hsb]
  exact hab

/-- C7, amended, witness: the scenario plan satisfies the side
conditions and every edge of its graph is loop-free. -/
theorem build_no_self_loop_amended_witness :
    ((Build scenarioPlan).edges.all fun e => !(e.«from» == e.«to»)) = true := by
  have h := build_no_self_loop_amended scenarioPlan (by decide) (by decide) (by decide)
  rw [List.all_eq_true]
  intro e he
  rw [Bool.not_eq_true', beq_eq_false_iff_ne]
  exact h e he

/-- C8, counterexample.  With node ids `a`, `b` and `b -> c` and state
dependencies of `a` on both `b` and `b -> c`, the two distinct edge keys
`"a -> b"` and `"a -> b -> c"` decode — by splitting on `" -> "` and
taking the first two parts — to the same `(from, to)` pair, so the
Graph carries two edges with identical endpoints. -/
theorem build_duplicate_edge_counterexample :
    (Build sepPlan).edges = [⟨"a", "b", "DEPENDS_ON"⟩, ⟨"a", "b", "DEPENDS_ON"⟩]
    ∧ ¬ List.Pairwise (fun e1 e2 : Edge => ¬(e1.«from» = e2.«from» ∧ e1.«to» = e2.«to»))
        (Build sepPlan).edges := by
  have he : (Build sepPlan).edges = [⟨"a", "b", "DEPENDS_ON"⟩, ⟨"a", "b", "DEPENDS_ON"⟩] := by
    decide
  refine ⟨he, fun hp => ?_⟩
  rw [he] at hp
  exact (List.pairwise_cons.mp hp).1 _ (List.mem_cons_self _ _) ⟨rfl, rfl⟩

/-- C8, amended.  No two edges of `Build`'s graph share their
`(from, to)` pair — duplicate discovery collapses to one edge — provided
node ids and collected references are space-free, so that distinct
deduplicated keys also decode to distinct pairs. -/
theorem build_edges_pairwise_distinct_amended :
    ∀ plan : TerraformPlan,
      (∀ n ∈ extractNodes plan.plannedRoot, hasNoSpace n.id = true) →
      (∀ ref ∈ allConfigRefs plan.configRoot, hasNoSpace ref = true) →
      List.Pairwise (fun e1 e2 : Edge => ¬(e1.«from» = e2.«from» ∧ e1.«to» = e2.«to»))
        (Build plan).edges := by
  intro plan hids hrefs
  rw [build_edges_eq, convertEdgesToSlice]
  have hnodup : (if (extractEdgesFromState plan.priorStateRoot
        (extractNodes plan.plannedRoot) []).isEmpty then
      extractEdgesFromConfig plan.configRoot (extractNodes plan.plannedRoot)
        (createNodeLookupKeys (extractNodes plan.plannedRoot)) []
    else extractEdgesFromState plan.priorStateRoot (extractNodes plan.plannedRoot) []).Nodup := by
    by_cases hS : (extractEdgesFromState plan.priorStateRoot
        (extractNodes plan.plannedRoot) []).isEmpty = true
    · rw [if_pos hS]
      exact extractEdgesFromConfig_nodup _ _ _ [] List.nodup_nil
    · rw [if_neg hS]
      exact extractEdgesFromState_nodup _ _ [] List.nodup_nil
  rw [List.pairwise_map]
  refine hnodup.imp_of_mem ?_
  intro k1 k2 h1 h2 hne
  obtain ⟨a1, b1, rfl, hsa1, hsb1⟩ := build_keys_shape plan hids hrefs k1 h1
  obtain ⟨a2, b2, rfl, hsa2, hsb2⟩ := build_keys_shape plan hids hrefs k2 h2
  rw [edgeKeyToEdge_mkEdgeKey hsa1 hsb1, edgeKeyToEdge_mkEdgeKey hsa2 hsb2]
  rintro ⟨hf, ht⟩
  have hf2 : a1 = a2 := hf
  have ht2 : b1 = b2 := ht
  exact hne (by rw [mkEdgeKey, mkEdgeKey, hf2, ht2])

/-- C8, amended, witness: the scenario plan satisfies the side
conditions and its edges are pairwise distinct in `(from, to)`. -/
theorem build_edges_pairwise_distinct_amended_witness :
    List.Pairwise (fun e1 e2 : Edge => ¬(e1.«from» = e2.«from» ∧ e1.«to» = e2.«to»))
      (Build scenarioPlan).edges :=
  build_edges_pairwise_distinct_amended scenarioPlan (by decide) (by decide)

/-- C9.  The node set of `Build`'s graph is exactly one `Node` per
resource entry of mode `"managed"`, collected by recursive descent
through the planned-values module tree including all nested child
modules; entries of any other mode never become nodes. -/
theorem build_nodes_managed_exactly :
    ∀ plan : TerraformPlan, (Build plan).nodes =
      ((allResources plan.plannedRoot).filter fun r => r.mode == ManagedResourceMode).map
        resourceToNode := by
  intro plan
  exact extractNodes_eq_filter plan.plannedRoot

/-- C10.  A reference whose first dot-segment is `"data"` but which has
fewer than three segments and matches no known node address resolves to
the empty string: the resolver neither synthesizes a truncated address
nor fails. -/
theorem resolver_short_data_reference_empty :
    ∀ (ref : String) (keys : List String),
      headSegmentIs (goSplit ref ".") "data" = true →
      (goSplit ref ".").length < 3 →
      findMatchingKey ref keys = none →
      resolveResourceAddress ref keys = "" := by
  intro ref keys hdata hlen hfind
  have hhead : ∃ p rest, goSplit ref "." = p :: rest ∧ p = "data" := by
    cases hp : goSplit ref "." with
    | nil => rw [hp] at hdata; exact absurd hdata (by simp [headSegmentIs])
    | cons p rest =>
      rw [hp] at hdata
      simp only [headSegmentIs] at hdata
      exact ⟨p, rest, rfl, beq_iff_eq.mp hdata⟩
  obtain ⟨p, rest, hp, rfl⟩ := hhead
  have hvar : headSegmentIs (goSplit ref ".") "var" = false := by
    rw [hp]; simp [headSegmentIs]
  have hloc : headSegmentIs (goSplit ref ".") "local" = false := by
    rw [hp]; simp [headSegmentIs]
  have hcond : (decide (3 ≤ (goSplit ref ".").length)
      && headSegmentIs (goSplit ref ".") "data") = false := by
    rw [decide_eq_false (by omega : ¬3 ≤ (goSplit ref ".").length), Bool.false_and]
  rw [resolveResourceAddress]
  simp only [hvar, hloc, Bool.or_self, Bool.false_eq_true, if_false, hfind, hcond]

/-- C10, witness: a two-segment data reference with no matching key
resolves to the empty string. -/
theorem resolver_short_data_reference_empty_witness :
    headSegmentIs (goSplit "data.foo" ".") "data" = true
    ∧ (goSplit "data.foo" ".").length < 3
    ∧ findMatchingKey "data.foo" ["z"] = none
    ∧ resolveResourceAddress "data.foo" ["z"] = "" :=
  ⟨by decide, by decide, by decide,
    resolver_short_data_reference_empty "data.foo" ["z"] (by decide) (by decide) (by decide)⟩

end TerraformGraphx
